import Mathlib

set_option linter.unusedVariables false
set_option maxRecDepth 2000

/- Shallow embedding of the planner repository (src/planner/src).
   Rational numbers stand for f64 values, and integers stand for chrono
   Int values as day numbers (plain Int here); day 0 is taken to be
   a Monday, so the weekday of a date is its residue mod 7
   (0 = Monday .. 6 = Sunday), matching the role of chrono Weekday. -/

/- calendar.rs: DateObj -/
inductive DateObj where
  | Date (d : Int)
  | Range (f t : Int)
deriving DecidableEq, Repr

/- calendar.rs: PublicHoliday -/
structure PublicHoliday where
  date : List DateObj
  name : String
deriving DecidableEq, Repr

/- calendar.rs: BusinessDaysCalendar; closed_days holds weekday numbers. -/
structure BusinessDaysCalendar where
  closed_days : List Int
  working_hrs_in_day : Nat
  public_holidays : List PublicHoliday
deriving DecidableEq, Repr

/- calendar.rs: DayInfo.  The copy of calendar.rs under src declares three
   variants, while gantt_builder.rs (get_day_info and get_working_day_len)
   also matches on WorkerHolidays and WorkerOtherDuties; the enum here
   carries all five variants that the code of the repository uses. -/
inductive DayInfo where
  | NonWorking
  | NonWorkingPubHoliday
  | WorkerHolidays
  | WorkerOtherDuties
  | WorkingDay (h : Nat)
deriving DecidableEq, Repr

def weekday (d : Int) : Int := d % 7

/- calendar.rs day_info, the per-date-object test of its holiday loop:
   a Date arm tests dd == d, a Range arm tests f <= d || t >= d,
   exactly as written in the source (lines 93-104). -/
def day_info_hit (d : Int) : DateObj → Bool
  | .Date dd => dd == d
  | .Range f t => decide (f ≤ d) || decide (t ≥ d)

/- calendar.rs: BusinessDaysCalendar::day_info (lines 87-108). -/
def BusinessDaysCalendar.day_info (cal : BusinessDaysCalendar) (d : Int) : DayInfo :=
  if cal.closed_days.contains (weekday d) then .NonWorking
  else if ((cal.public_holidays.map (fun h => h.date)).flatten.any (day_info_hit d)) then
    .NonWorkingPubHoliday
  else .WorkingDay cal.working_hrs_in_day

/- calendar.rs: in_date_obj_vec (lines 111-120); the Range arm here tests
   f <= d && d <= t. -/
def in_date_obj_vec (d : Int) (dates : List DateObj) : Bool :=
  dates.any (fun dt =>
    match dt with
    | .Date dd => dd == d
    | .Range f t => decide (f ≤ d) && decide (d ≤ t))

/-- C1: for a date whose weekday is open, day_info is claimed to answer
PublicHoliday exactly on a single-date match or an inclusive range match.
The code instead tests f <= d || t >= d on a range, which holds for every
date once f <= t: with the range [10, 12] the date 1 (a Tuesday, outside
the range, as in_date_obj_vec on the same range confirms) is classified
NonWorkingPubHoliday rather than WorkingDay 8. -/
theorem c1_day_info_range_bug :
    BusinessDaysCalendar.day_info ⟨[5, 6], 8, [⟨[DateObj.Range 10 12], "x"⟩]⟩ 1 =
      DayInfo.NonWorkingPubHoliday
    ∧ in_date_obj_vec 1 [DateObj.Range 10 12] = false
    ∧ DayInfo.NonWorkingPubHoliday ≠ DayInfo.WorkingDay 8 := by decide

/- project.rs: TeamMember -/
structure TeamMember where
  name : String
  base_calendar : String
  focus_factor : ℚ
  holidays : List DateObj
  other_duties : List DateObj
deriving DecidableEq, Repr

/- project.rs: Task (renamed PTask here because Task names a core Lean type). -/
structure PTask where
  id : String
  name : String
  estimate : ℚ
  after : List String
deriving DecidableEq, Repr, Inhabited

/- project.rs: Assignment -/
structure Assignment where
  task : String
  owner : String
  focus_factor : Option ℚ
deriving DecidableEq, Repr

/- project.rs: TimeMarker -/
structure TimeMarker where
  time : List DateObj
  label : String
  color : Option String
deriving DecidableEq, Repr

/- project.rs: ProjectConfig -/
structure ProjectConfig where
  project_name : String
  start_date : Int
  team : List TeamMember
  tasks : List PTask
  assignments : List Assignment
  time_markers : Option (List TimeMarker)
deriving DecidableEq, Repr

/- gantt_builder.rs: WorkerDay -/
inductive WorkerDay where
  | PubHolidays
  | Holidays
  | OtherDuties
  | Overloaded
  | Underloaded
  | Fine
  | Unassigned
deriving DecidableEq, Repr

/- gantt_builder.rs: Task (the resolved output task). duration_hours is
   (24.0 * estimate) as u32, a truncating cast that saturates at zero for
   negative values; estimates never reach 2 to the 32 here so the upper
   saturation is dropped. -/
structure GTask where
  id : String
  name : String
  assignee : String
  after : List String
  start_on : Int
  end_on : Int
  pause_days : List Int
  duration_hours : Nat
deriving DecidableEq, Repr

/- gantt_builder.rs: ResourceAllocation, modelling
   BTreeMap<String, BTreeMap<Int, (Hours, WorkerDay)>> as nested
   association lists; an existing key is updated in place and a fresh key is
   appended, which preserves map contents (the key sets and the value at
   each key), the only aspect the claims depend on. -/
abbrev InnerAlloc := List (Int × (ℚ × WorkerDay))

abbrev ResourceAllocation := List (String × InnerAlloc)

/- lookup by key in the inner per-date map (BTreeMap::get_mut target). -/
def mapLookup (m : InnerAlloc) (d : Int) : Option (ℚ × WorkerDay) :=
  match m with
  | [] => none
  | (k, v) :: rest => if k = d then some v else mapLookup rest d

/- the inner-map part of ResourceAllocation::add (lines 54-58): an existing
   entry accumulates hours and takes the new classification, a missing
   entry is inserted. -/
def mapAdd (m : InnerAlloc) (d : Int) (day : WorkerDay) (hours : ℚ) : InnerAlloc :=
  match m with
  | [] => [(d, (hours, day))]
  | (k, v) :: rest =>
    if k = d then (k, (v.1 + hours, day)) :: rest
    else (k, v) :: mapAdd rest d day hours

/- gantt_builder.rs: ResourceAllocation::add (lines 51-59); the outer entry
   call creates the worker bucket on demand. -/
def raAdd (ra : ResourceAllocation) (worker : String) (d : Int)
    (day : WorkerDay) (hours : ℚ) : ResourceAllocation :=
  match ra with
  | [] => [(worker, [(d, (hours, day))])]
  | (k, m) :: rest =>
    if k = worker then (k, mapAdd m d day hours) :: rest
    else (k, m) :: raAdd rest worker d day hours

def raLookup (ra : ResourceAllocation) (worker : String) : Option InnerAlloc :=
  match ra with
  | [] => none
  | (k, m) :: rest => if k = worker then some m else raLookup rest worker

/- the HashMap<String, Vec<Int>> workers_absence with
   entry(name).or_default().push(d). -/
abbrev AbsenceMap := List (String × List Int)

def waPush (wa : AbsenceMap) (worker : String) (d : Int) : AbsenceMap :=
  match wa with
  | [] => [(worker, [d])]
  | (k, v) :: rest =>
    if k = worker then (k, v ++ [d]) :: rest
    else (k, v) :: waPush rest worker d

/- gantt_builder.rs lines 382-393, the reclassification applied to one
   ledger entry during the fill loop: an if chain on the committed hours
   that overwrites the classification and otherwise leaves the entry as it
   is.  It never inspects the previous classification. -/
def reclassPair (pr : ℚ × WorkerDay) : ℚ × WorkerDay :=
  let h := pr.1
  if h ≥ 8001/1000 then (h, WorkerDay.Overloaded)
  else if h ≤ 7999/1000 ∧ h ≥ 1/1000 then (h, WorkerDay.Underloaded)
  else if 7999/1000 < h ∧ h < 8001/1000 then (h, WorkerDay.Fine)
  else pr

/- days.entry(d).or_insert((Hours(0.0), WorkerDay::Unassigned)) -/
def mapOrInsertDefault (m : InnerAlloc) (d : Int) : InnerAlloc :=
  if (mapLookup m d).isSome then m else m ++ [(d, (0, WorkerDay.Unassigned))]

def mapUpdateAt (m : InnerAlloc) (d : Int)
    (f : ℚ × WorkerDay → ℚ × WorkerDay) : InnerAlloc :=
  m.map (fun e => if e.1 = d then (e.1, f e.2) else e)

/- one day of the fill loop: or_insert the default, then reclassify that
   entry in place. -/
def fillStep (m : InnerAlloc) (d : Int) : InnerAlloc :=
  mapUpdateAt (mapOrInsertDefault m d) d reclassPair

/- the per-worker day walk of gantt_builder.rs lines 378-394, iterating k
   calendar days starting at d. -/
def fillLoop : Nat → InnerAlloc → Int → InnerAlloc
  | 0, m, _ => m
  | k + 1, m, d => fillLoop k (fillStep m d) (d + 1)

/- number of iterations of `for d in project_begin.iter_days()` with the
   `if d > project_end break` guard: the days b, b+1, ..., e. -/
def numDays (b e : Int) : Nat := (e + 1 - b).toNat

/- gantt_builder.rs lines 377-395: the whole finalize pass over the ledger. -/
def finalizeRA (ra : ResourceAllocation) (b e : Int) : ResourceAllocation :=
  ra.map (fun p => (p.1, fillLoop (numDays b e) p.2 b))

/- gantt_builder.rs: get_day_info (lines 168-186). -/
def get_day_info (d : Int) (cal : BusinessDaysCalendar) (worker : TeamMember) : DayInfo :=
  match cal.day_info d with
  | .WorkingDay h =>
    if in_date_obj_vec d worker.holidays then .WorkerHolidays
    else if in_date_obj_vec d worker.other_duties then .WorkerOtherDuties
    else .WorkingDay h
  | di => di

/- the mutable per-task accumulators threaded through the burn-down loop:
   the worker absence map, the public holiday list and the ledger are
   whole-run state, pause_days is per task. -/
structure BurnAcc where
  workers_absence : AbsenceMap
  public_holidays : List Int
  resource_allocation : ResourceAllocation
  pause_days : List Int
deriving DecidableEq, Repr

/- gantt_builder.rs: get_working_day_len (lines 188-228), returning the
   Option<u32> result together with the updated accumulators.  Note the
   catch-all arm (the plain NonWorking weekday): it records a pause day and
   a zero-hour PubHolidays ledger entry but no worker absence. -/
def get_working_day_len (day_info : DayInfo) (d : Int) (worker_name : String)
    (acc : BurnAcc) : Option Nat × BurnAcc :=
  match day_info with
  | .WorkerHolidays =>
    (none, { acc with
      workers_absence := waPush acc.workers_absence worker_name d,
      resource_allocation := raAdd acc.resource_allocation worker_name d WorkerDay.Holidays 0,
      pause_days := acc.pause_days ++ [d] })
  | .WorkerOtherDuties =>
    (none, { acc with
      workers_absence := waPush acc.workers_absence worker_name d,
      resource_allocation := raAdd acc.resource_allocation worker_name d WorkerDay.OtherDuties 0,
      pause_days := acc.pause_days ++ [d] })
  | .WorkingDay h => (some h, acc)
  | .NonWorkingPubHoliday =>
    (none, { acc with
      public_holidays := acc.public_holidays ++ [d],
      workers_absence := waPush acc.workers_absence worker_name d,
      resource_allocation := raAdd acc.resource_allocation worker_name d WorkerDay.PubHolidays 0,
      pause_days := acc.pause_days ++ [d] })
  | .NonWorking =>
    (none, { acc with
      pause_days := acc.pause_days ++ [d],
      resource_allocation := raAdd acc.resource_allocation worker_name d WorkerDay.PubHolidays 0 })

/- f64 helpers.  f64trunc is the value of an `as u64` or `as u32` style
   cast before saturation (truncation toward zero); Int.div is
   truncating division.  rustRem1 is the f64 remainder x % 1.0, which has
   the sign of x.  f64ceil is the f64 ceil function. -/
def f64trunc (q : ℚ) : Int := Int.tdiv q.num (q.den : Int)

def rustRem1 (q : ℚ) : ℚ := q - (f64trunc q : ℚ)

def f64floor (q : ℚ) : Int := Int.fdiv q.num (q.den : Int)

def f64ceil (q : ℚ) : Int := -(f64floor (-q))

/- outcome of one engine failure: a ProcessError built through report_err,
   a Rust panic (unwrap on None, a failed assert, or the u64 subtraction
   overflow in the end-date computation), or exhaustion of the day fuel of
   the burn-down loop, which models divergence of the unbounded
   `for d in start_on.iter_days()` loop. -/
inductive StepErr where
  | procError (msg : String)
  | panicked (msg : String)
  | innerOut
deriving DecidableEq, Repr

/- gantt_builder.rs: GraphNode.  The Cell<Option<f64>> cumulative_days
   lives in ProcState.offsets, indexed by node number, so that the state of
   the traversal is explicit. -/
structure GraphNode where
  task_id : Nat
  parents : List Nat
  children : List Nat
deriving DecidableEq, Repr, Inhabited

/- gantt_builder.rs: Graph -/
structure Graph where
  starting_points : List Nat
  graph : List GraphNode
deriving DecidableEq, Repr

/- the HashMap<&String, GraphNodeId> lookup of build_task_graph; insert
   overwrites an existing key. -/
def lookupInsert (m : List (String × Nat)) (k : String) (v : Nat) : List (String × Nat) :=
  match m with
  | [] => [(k, v)]
  | (k0, v0) :: rest =>
    if k0 = k then (k0, v) :: rest else (k0, v0) :: lookupInsert rest k v

def lookupFind (m : List (String × Nat)) (k : String) : Option Nat :=
  (m.find? (fun e => e.1 == k)).map (fun e => e.2)

def buildLookup (tasks : List PTask) : List (String × Nat) :=
  tasks.enum.foldl (fun m p => lookupInsert m p.2.id p.1) []

/- first pass of build_task_graph: one fresh node per task (task_id is the
   enumeration index), and a starting point for every task without
   dependencies, in task order. -/
def initNodes (tasks : List PTask) : List GraphNode :=
  tasks.enum.map (fun p => { task_id := p.1, parents := [], children := [] })

def startingPoints (tasks : List PTask) : List Nat :=
  tasks.enum.filterMap (fun p => if p.2.after.isEmpty then some p.1 else none)

/- one dependency edge of the second pass: push i onto the children of the
   parent, then push the parent onto the parents of i. -/
def addEdge (nodes : List GraphNode) (parent_id i : Nat) : List GraphNode :=
  let pn := nodes.getD parent_id default
  let nodes1 := nodes.set parent_id { pn with children := pn.children ++ [i] }
  let cn := nodes1.getD i default
  nodes1.set i { cn with parents := cn.parents ++ [parent_id] }

/- the body of the second pass for row i: every name in after is resolved
   through the lookup table; lookup.get(&after).unwrap() panics (None here)
   when the name matches no task. -/
def pass2row (tasks : List PTask) (lookup : List (String × Nat))
    (nodes : List GraphNode) (i : Nat) : Option (List GraphNode) :=
  (tasks.getD i default).after.foldlM (fun ns a =>
    match lookupFind lookup a with
    | none => none
    | some pid => some (addEdge ns pid i)) nodes

/- gantt_builder.rs: build_task_graph (lines 129-166); none models the
   panic of the unwrap on an unknown dependency id. -/
def build_task_graph (tasks : List PTask) : Option Graph :=
  match (List.range tasks.length).foldlM (pass2row tasks (buildLookup tasks)) (initNodes tasks) with
  | none => none
  | some ns => some { starting_points := startingPoints tasks, graph := ns }

/- the parent fold of Graph::calc_start_time: a left fold of max starting
   at 0 that fails at the first parent with an unset offset. -/
def calcStartGo (offsets : List (Option ℚ)) (acc : ℚ) : List Nat → Option ℚ
  | [] => some acc
  | p :: rest =>
    match offsets.getD p none with
    | none => none
    | some s => calcStartGo offsets (max acc s) rest

/- gantt_builder.rs: Graph::calc_start_time (lines 106-118), returning the
   value it writes into cumulative_days, or none where the source returns
   false without writing. -/
def calc_start_time (offsets : List (Option ℚ)) (node : GraphNode) : Option ℚ :=
  calcStartGo offsets 0 node.parents

/- the state of the process loop.  offsets is the per-node
   Cell<Option<f64>> cumulative_days; starts and writes are ghost
   instrumentation: starts records the value of the first write (the one
   calc_start_time performs) and writes counts the calls of
   cumulative_days.set on each node, one per set call site reached. -/
structure ProcState where
  queue : List Nat
  offsets : List (Option ℚ)
  starts : List (Option ℚ)
  writes : List Nat
  tasks : List GTask
  workers_absence : AbsenceMap
  public_holidays : List Int
  resource_allocation : ResourceAllocation
  project_end : Int
deriving DecidableEq, Repr

structure BurnOut where
  cum : ℚ
  end_on : Int
  acc : BurnAcc
deriving DecidableEq, Repr

/- the end of a task inside the burn-down loop:
   end_on = project_begin + Days::new(cumulative_days.ceil() as u64 - 1).
   When the ceiling is not positive the cast yields 0u64 and the
   subtraction underflows, a panic. -/
def taskEnd (project_begin : Int) (cum : ℚ) (acc : BurnAcc) :
    Except StepErr (Option BurnOut) :=
  let c := f64ceil cum
  if c.toNat = 0 then .error (.panicked ("attempt to subtract with overflow"))
  else .ok (some { cum := cum, end_on := project_begin + ((c.toNat - 1 : Nat) : Int), acc := acc })

/- gantt_builder.rs lines 290-358: the day-by-day burn-down loop of one
   task.  The fuel argument bounds the number of days inspected; ok none
   reports that the fuel ran out, standing for divergence of the source
   loop, which has no bound of its own. -/
def innerBurn (cal : BusinessDaysCalendar) (worker : TeamMember) (assignment : Assignment)
    (worker_name : String) (project_begin : Int) :
    Nat → Int → ℚ → ℚ → BurnAcc → Except StepErr (Option BurnOut)
  | 0, _, _, _, _ => .ok none
  | fuel + 1, d, cum, htb, acc =>
    let di := get_day_info d cal worker
    match get_working_day_len di d worker_name acc with
    | (none, acc1) =>
      innerBurn cal worker assignment worker_name project_begin fuel (d + 1) (cum + 1) htb acc1
    | (some h, acc1) =>
      let focus := assignment.focus_factor.getD worker.focus_factor
      let eff0 := (h : ℚ) * focus
      let left_day := rustRem1 cum
      let adj := if abs left_day > 1/1000 then 1 - left_day else 1
      let eff := eff0 * adj
      let cdl := 1 * adj
      if htb ≥ eff then
        let htb1 := htb - eff
        let cum1 := cum + cdl
        let ra2 := raAdd acc1.resource_allocation worker_name d WorkerDay.Fine (8 * cdl)
        let acc2 := { acc1 with resource_allocation := ra2 }
        if abs htb1 < 1/10000000000 then taskEnd project_begin cum1 acc2
        else innerBurn cal worker assignment worker_name project_begin fuel (d + 1) cum1 htb1 acc2
      else
        if eff = 0 then .error (.panicked ("assertion failed: effective_working_hrs"))
        else
          let fraction := htb / eff
          if ¬ fraction ≤ 1 then .error (.panicked ("assertion failed: fraction"))
          else
            let cum1 := cum + cdl * fraction
            let ra2 := raAdd acc1.resource_allocation worker_name d WorkerDay.Underloaded (8 * fraction * cdl)
            let acc2 := { acc1 with resource_allocation := ra2 }
            taskEnd project_begin cum1 acc2

/- the fixed inputs of the process loop: the graph, the project, the
   calendar map viewed through HashMap::get, and the day fuel handed to
   every burn-down. -/
structure Ctx where
  g : Graph
  proj : ProjectConfig
  calFn : String → Option BusinessDaysCalendar
  innerFuel : Nat

/- gantt_builder.rs lines 268-374: the part of a loop iteration that runs
   once calc_start_time has succeeded with start offset v (already written
   into offsets by the caller). -/
def stepBody (C : Ctx) (n : Nat) (node : GraphNode) (task : PTask) (v : ℚ)
    (s : ProcState) : Except StepErr ProcState :=
  match C.proj.assignments.find? (fun a => a.task == task.id) with
  | none => .error (.procError ("task not assigned"))
  | some assignment =>
    match C.proj.team.find? (fun u => u.name == assignment.owner) with
    | none => .error (.procError ("worker not defined"))
    | some worker =>
      match C.calFn worker.base_calendar with
      | none => .error (.panicked ("unwrap on None"))
      | some worker_cal =>
        let project_begin := C.proj.start_date
        let start_on := project_begin + (((f64trunc v).toNat : Nat) : Int)
        let htb := task.estimate * 8
        let acc0 : BurnAcc :=
          ⟨s.workers_absence, s.public_holidays, s.resource_allocation, []⟩
        match innerBurn worker_cal worker assignment assignment.owner project_begin
            C.innerFuel start_on v htb acc0 with
        | .error e => .error e
        | .ok none => .error .innerOut
        | .ok (some out) =>
          let project_end1 := if out.end_on > s.project_end then out.end_on else s.project_end
          .ok { s with
            tasks := s.tasks ++ [{
              id := task.id, name := task.name, assignee := assignment.owner,
              after := task.after, start_on := start_on, end_on := out.end_on,
              pause_days := out.acc.pause_days,
              duration_hours := (f64trunc (24 * task.estimate)).toNat }],
            workers_absence := out.acc.workers_absence,
            public_holidays := out.acc.public_holidays,
            resource_allocation := out.acc.resource_allocation,
            project_end := project_end1,
            offsets := s.offsets.set n (some out.cum),
            writes := s.writes.set n (s.writes.getD n 0 + 1) }

/- one iteration of the process while-let loop for popped node n (the
   state already has n removed from the front of the queue): the unwraps
   of get_node and task_id.get, the skip of an already computed node, the
   push-to-back retry when a parent is unresolved, and otherwise the first
   offset write (inside calc_start_time) plus the push of the children to
   the front of the queue, followed by the body. -/
def stepIter (C : Ctx) (n : Nat) (s : ProcState) : Except StepErr ProcState :=
  match C.g.graph.get? n with
  | none => .error (.panicked ("unwrap on None"))
  | some node =>
    match C.proj.tasks.get? node.task_id with
    | none => .error (.panicked ("unwrap on None"))
    | some task =>
      if (s.offsets.getD n none).isSome then .ok s
      else
        match calc_start_time s.offsets node with
        | none => .ok { s with queue := s.queue ++ [n] }
        | some v =>
          stepBody C n node task v
            { s with
              offsets := s.offsets.set n (some v),
              starts := s.starts.set n (some v),
              writes := s.writes.set n (s.writes.getD n 0 + 1),
              queue := node.children.reverse ++ s.queue }

inductive LoopResult where
  | finished (s : ProcState)
  | failed (e : StepErr)
  | outOfFuel
deriving DecidableEq, Repr

/- gantt_builder.rs lines 245-375: the while-let worklist loop, bounded by
   fuel iterations. -/
def runLoop (C : Ctx) : Nat → ProcState → LoopResult
  | 0, _ => .outOfFuel
  | fuel + 1, s =>
    match s.queue with
    | [] => .finished s
    | n :: rest =>
      match stepIter C n { s with queue := rest } with
      | .error e => .failed e
      | .ok s1 => runLoop C fuel s1

def initState (g : Graph) (proj : ProjectConfig) : ProcState :=
  { queue := g.starting_points,
    offsets := List.replicate g.graph.length none,
    starts := List.replicate g.graph.length none,
    writes := List.replicate g.graph.length 0,
    tasks := [], workers_absence := [], public_holidays := [],
    resource_allocation := [], project_end := proj.start_date }

/- HashMap<&String, BusinessDaysCalendar>::get, with the map embedded as an
   association list in iteration order. -/
def calsGet (cals : List (String × BusinessDaysCalendar)) (name : String) :
    Option BusinessDaysCalendar :=
  (cals.find? (fun p => p.1 == name)).map (fun p => p.2)

/- gantt_builder.rs: GanttData -/
structure GanttData where
  title : String
  tasks : List GTask
  project_starts : Int
  closed_days : List Int
  workers_absence : AbsenceMap
  public_holidays : List Int
  resource_allocation : ResourceAllocation
  time_markers : List TimeMarker
deriving DecidableEq, Repr

/- gantt_builder.rs lines 376-409: finalize and assembly of the result;
   closed_days comes from the calendar supplied by values().next(). -/
def mkGanttData (proj : ProjectConfig) (s : ProcState) (closed : List Int) : GanttData :=
  { title := proj.project_name,
    tasks := s.tasks,
    project_starts := proj.start_date,
    closed_days := closed,
    workers_absence := s.workers_absence,
    public_holidays := s.public_holidays,
    resource_allocation := finalizeRA s.resource_allocation proj.start_date s.project_end,
    time_markers := proj.time_markers.getD [] }

inductive ProcResult where
  | done (g : GanttData)
  | failed (e : StepErr)
  | outOfFuel
deriving DecidableEq, Repr

/- gantt_builder.rs: process (lines 230-410), with a fuel bound on the
   worklist loop (outerFuel) and on each burn-down (innerFuel). -/
def process (outerFuel innerFuel : Nat) (proj : ProjectConfig)
    (cals : List (String × BusinessDaysCalendar)) : ProcResult :=
  match build_task_graph proj.tasks with
  | none => .failed (.panicked ("unwrap on None"))
  | some g =>
    match runLoop ⟨g, proj, calsGet cals, innerFuel⟩ outerFuel (initState g proj) with
    | .outOfFuel => .outOfFuel
    | .failed e => .failed e
    | .finished s =>
      match cals with
      | [] => .failed (.panicked ("unwrap on None"))
      | (_, c0) :: _ => .done (mkGanttData proj s c0.closed_days)

/- observation of the final loop state (before finalize and assembly),
   for statements about the ghost instrumentation. -/
def processFinal (outerFuel innerFuel : Nat) (proj : ProjectConfig)
    (cals : List (String × BusinessDaysCalendar)) : Option ProcState :=
  match build_task_graph proj.tasks with
  | none => none
  | some g =>
    match runLoop ⟨g, proj, calsGet cals, innerFuel⟩ outerFuel (initState g proj) with
    | .finished s => some s
    | _ => none

def calW : BusinessDaysCalendar := ⟨[], 8, []⟩

def calWeekend : BusinessDaysCalendar := ⟨[5, 6], 8, []⟩

def calAllClosed : BusinessDaysCalendar := ⟨[0, 1, 2, 3, 4, 5, 6], 8, []⟩

def memberW : TeamMember := ⟨"w", "c", 1, [], []⟩

def projOne : ProjectConfig :=
  ⟨"p", 0, [memberW], [⟨"t1", "T1", 1, []⟩], [⟨"t1", "w", none⟩], none⟩

def calsW : List (String × BusinessDaysCalendar) := [("c", calW)]


def projZero : ProjectConfig :=
  ⟨"p", 0, [memberW], [⟨"t1", "T1", 0, []⟩], [⟨"t1", "w", none⟩], none⟩

def calsClosed : List (String × BusinessDaysCalendar) := [("c", calAllClosed)]

def cals2a : List (String × BusinessDaysCalendar) := [("c", calW), ("d", calWeekend)]

def cals2b : List (String × BusinessDaysCalendar) := [("d", calWeekend), ("c", calW)]

def projBadDep : ProjectConfig :=
  ⟨"p", 0, [memberW], [⟨"t1", "T1", 1, ["zzz"]⟩], [⟨"t1", "w", none⟩], none⟩

def projChain : ProjectConfig :=
  ⟨"p", 0, [memberW], [⟨"t1", "T1", 1, []⟩, ⟨"t2", "T2", 1, ["t1"]⟩],
   [⟨"t1", "w", none⟩, ⟨"t2", "w", none⟩], none⟩


def ProcResult.isDone : ProcResult → Bool
  | .done _ => true
  | _ => false

def ProcResult.isProcErr : ProcResult → Bool
  | .failed (.procError _) => true
  | _ => false

/-- C10: a dependency-free task with estimate 0 whose start date is a
working day drives the burn-down into the fractional branch with
fraction 0, the cumulative offset stays 0, and the end-date computation
ceil(0) as u64 - 1 underflows: the run panics.  The input is the one-task
project projZero (estimate 0, worker with an all-open calendar). -/
theorem c10_zero_estimate_underflow :
    process 3 5 projZero calsW =
      ProcResult.failed (StepErr.panicked ("attempt to subtract with overflow")) := by with_unfolding_all decide

def ProcResult.closedDays : ProcResult → Option (List Int)
  | .done g => some g.closed_days
  | _ => none

/-- C2 counterexample: the same project run against the same
calendar-name-to-calendar map handed over in two different hash-map
iteration orders (cals2a and cals2b are permutations of each other)
produces different GanttData: closed_days is copied from whichever
calendar values().next() yields first. -/
theorem c2_hashmap_order_counterexample :
    process 3 5 projOne cals2a ≠ process 3 5 projOne cals2b := by
  have ha : (process 3 5 projOne cals2a).closedDays = some [] := by
    with_unfolding_all decide
  have hb : (process 3 5 projOne cals2b).closedDays = some [5, 6] := by
    with_unfolding_all decide
  intro h
  rw [h] at ha
  exact absurd (ha.symm.trans hb) (by simp)

/-- C3 counterexample: a ledger entry with exactly 7.999 committed hours,
which the claim places in the Fine band (8 - eps <= hours <= 8 + eps),
is reclassified Underloaded by the finalize pass, whose branch reads
hours <= 7.999 && hours >= 0.001. -/
theorem c3_boundary_counterexample :
    finalizeRA [("w", [(0, (7999/1000, WorkerDay.Unassigned))])] 0 0 =
      [("w", [(0, (7999/1000, WorkerDay.Underloaded))])]
    ∧ WorkerDay.Underloaded ≠ WorkerDay.Fine := by
  constructor
  · norm_num [finalizeRA, numDays, fillLoop, fillStep, mapUpdateAt, mapOrInsertDefault,
      mapLookup, reclassPair]
  · simp

/-- C4 counterexample: a day classified NonWorking (a closed weekday of the
base calendar) leaves the worker-absence map untouched, against the claim
that every non-working or absence day is recorded as a worker-absence
entry; its zero-hour ledger entry is moreover tagged PubHolidays, not a
classification matching NonWorking. -/
theorem c4_nonworking_counterexample :
    (get_working_day_len DayInfo.NonWorking 0 "w" ⟨[], [], [], []⟩).2.workers_absence = []
    ∧ (get_working_day_len DayInfo.NonWorking 0 "w" ⟨[], [], [], []⟩).1 = none
    ∧ (get_working_day_len DayInfo.NonWorking 0 "w" ⟨[], [], [], []⟩).2.resource_allocation =
        [("w", [(0, (0, WorkerDay.PubHolidays))])] := by with_unfolding_all decide

/-- C6 counterexample: in a completed run of the one-task project the
memoized cumulative-days cell of node 0 is written twice (once by
calc_start_time with the start offset, once at the end of the node body
with the final offset), refuting written at most once. -/
theorem c6_write_twice_counterexample :
    (processFinal 3 5 projOne calsW).map (fun s => s.writes.getD 0 0) = some 2
    ∧ ¬ (2 ≤ 1) := by with_unfolding_all decide

/-- C8 counterexample: a task list whose only task names the unknown
dependency id zzz makes build_task_graph panic (the unwrap of the failed
lookup, none here); the whole run aborts with that panic and produces no
result, but no structured UnknownDependency error value exists: the run
does not fail with a ProcessError. -/
theorem c8_unknown_dep_counterexample :
    build_task_graph projBadDep.tasks = none
    ∧ process 3 5 projBadDep calsW = ProcResult.failed (StepErr.panicked ("unwrap on None"))
    ∧ (process 3 5 projBadDep calsW).isProcErr = false
    ∧ (process 3 5 projBadDep calsW).isDone = false := by with_unfolding_all decide

/- helper lemmas for the all-closed-calendar divergence example: every day
   is a closed weekday, so the burn-down loop never consumes an hour and
   never ends. -/
theorem allclosed_day_info : ∀ d : Int, calAllClosed.day_info d = DayInfo.NonWorking := by
  intro d
  have h7 : weekday d = 0 ∨ weekday d = 1 ∨ weekday d = 2 ∨ weekday d = 3 ∨ weekday d = 4
      ∨ weekday d = 5 ∨ weekday d = 6 := by
    unfold weekday
    omega
  rcases h7 with h | h | h | h | h | h | h <;>
    simp [BusinessDaysCalendar.day_info, calAllClosed, h]

theorem innerBurn_allclosed :
    ∀ (innerFuel : Nat) (d : Int) (cum htb : ℚ) (acc : BurnAcc),
      innerBurn calAllClosed memberW ⟨"t1", "w", none⟩ "w" 0 innerFuel d cum htb acc = .ok none := by
  intro innerFuel
  induction innerFuel with
  | zero => intro d cum htb acc; rfl
  | succ n ih =>
    intro d cum htb acc
    have hd : get_day_info d calAllClosed memberW = DayInfo.NonWorking := by
      simp [get_day_info, allclosed_day_info d]
    simp only [innerBurn, hd, get_working_day_len]
    exact ih _ _ _ _

/-- C5 counterexample: for the acyclic, fully reachable one-task graph of
projOne run against a calendar whose closed_days lists all seven weekdays,
the burn-down loop of the first task diverges (the day fuel is exhausted
for every bound), so the worklist traversal never terminates: no fuel
makes the run finish.  The claim quantifies only over the graph shape, so
this input satisfies its hypotheses while the traversal does not
terminate. -/
theorem c5_allclosed_counterexample :
    (∀ outerFuel innerFuel : Nat,
      (process outerFuel innerFuel projOne calsClosed).isDone = false)
    ∧ process 3 5 projOne calsClosed = ProcResult.failed StepErr.innerOut := by
  have hb : build_task_graph projOne.tasks = some ⟨[0], [⟨0, [], []⟩]⟩ := by
    with_unfolding_all decide
  have hstep : ∀ innerFuel (s : ProcState),
      stepIter ⟨⟨[0], [⟨0, [], []⟩]⟩, projOne, calsGet calsClosed, innerFuel⟩ 0 s =
        if (s.offsets.getD 0 none).isSome then .ok s
        else .error StepErr.innerOut := by
    intro innerFuel s
    have hburn : ∀ (IF : Nat) (d : Int) (cum htb : ℚ) (acc : BurnAcc),
        innerBurn calAllClosed ⟨"w", "c", 1, [], []⟩ ⟨"t1", "w", none⟩ "w" 0 IF d cum htb acc =
          .ok none := innerBurn_allclosed
    simp only [stepIter, projOne, List.getD]
    by_cases hres : (s.offsets[0]?.getD none).isSome
    · simp [hres]
    · simp [hres, calc_start_time, calcStartGo, stepBody, calsGet, calsClosed,
        memberW, hburn]
  have hmain : ∀ outerFuel innerFuel,
      process (outerFuel + 1) innerFuel projOne calsClosed = ProcResult.failed StepErr.innerOut := by
    intro outerFuel innerFuel
    simp only [process, hb]
    have : runLoop ⟨⟨[0], [⟨0, [], []⟩]⟩, projOne, calsGet calsClosed, innerFuel⟩
        (outerFuel + 1) (initState ⟨[0], [⟨0, [], []⟩]⟩ projOne) = .failed StepErr.innerOut := by
      simp only [runLoop, initState]
      simp [hstep]
    rw [this]
  refine ⟨?_, hmain 2 5⟩
  intro outerFuel innerFuel
  cases outerFuel with
  | zero => rfl
  | succ k => rw [hmain k innerFuel]; rfl

/-- C4 amended: a burn-down day whose classification is not a working day
consumes no task hours and advances the cumulative offset by exactly one
full day, and is recorded as a pause day; worker-holiday, other-duty and
public-holiday days also record a worker-absence entry and a zero-hour
ledger entry with the matching tag (public holidays are also appended to
the public-holiday list), while the plain non-working weekday records only
the pause day and a zero-hour ledger entry tagged PubHolidays, with no
worker-absence entry. -/
theorem c4_absence_day_amended (di : DayInfo) (d : Int) (wn : String) (acc : BurnAcc)
    (h : ∀ hrs, di ≠ DayInfo.WorkingDay hrs) :
    (get_working_day_len di d wn acc).1 = none
    ∧ (get_working_day_len di d wn acc).2.pause_days = acc.pause_days ++ [d]
    ∧ (di = DayInfo.WorkerHolidays →
        (get_working_day_len di d wn acc).2 =
          { acc with
              workers_absence := waPush acc.workers_absence wn d,
              resource_allocation := raAdd acc.resource_allocation wn d WorkerDay.Holidays 0,
              pause_days := acc.pause_days ++ [d] })
    ∧ (di = DayInfo.WorkerOtherDuties →
        (get_working_day_len di d wn acc).2 =
          { acc with
              workers_absence := waPush acc.workers_absence wn d,
              resource_allocation := raAdd acc.resource_allocation wn d WorkerDay.OtherDuties 0,
              pause_days := acc.pause_days ++ [d] })
    ∧ (di = DayInfo.NonWorkingPubHoliday →
        (get_working_day_len di d wn acc).2 =
          { acc with
              workers_absence := waPush acc.workers_absence wn d,
              public_holidays := acc.public_holidays ++ [d],
              resource_allocation := raAdd acc.resource_allocation wn d WorkerDay.PubHolidays 0,
              pause_days := acc.pause_days ++ [d] })
    ∧ (di = DayInfo.NonWorking →
        (get_working_day_len di d wn acc).2 =
          { acc with
              resource_allocation := raAdd acc.resource_allocation wn d WorkerDay.PubHolidays 0,
              pause_days := acc.pause_days ++ [d] })
    ∧ (∀ (cal : BusinessDaysCalendar) (worker : TeamMember) (assignment : Assignment)
        (pb : Int) (fuel : Nat) (cum htb : ℚ),
        get_day_info d cal worker = di →
          innerBurn cal worker assignment wn pb (fuel + 1) d cum htb acc =
            innerBurn cal worker assignment wn pb fuel (d + 1) (cum + 1) htb
              (get_working_day_len di d wn acc).2) := by
  cases di with
  | WorkingDay hrs => exact absurd rfl (h hrs)
  | NonWorking =>
    refine ⟨rfl, rfl, by simp, by simp, by simp, fun _ => rfl, ?_⟩
    intro cal worker assignment pb fuel cum htb hdi
    simp only [innerBurn, hdi, get_working_day_len]
  | NonWorkingPubHoliday =>
    refine ⟨rfl, rfl, by simp, by simp, fun _ => rfl, by simp, ?_⟩
    intro cal worker assignment pb fuel cum htb hdi
    simp only [innerBurn, hdi, get_working_day_len]
  | WorkerHolidays =>
    refine ⟨rfl, rfl, fun _ => rfl, by simp, by simp, by simp, ?_⟩
    intro cal worker assignment pb fuel cum htb hdi
    simp only [innerBurn, hdi, get_working_day_len]
  | WorkerOtherDuties =>
    refine ⟨rfl, rfl, by simp, fun _ => rfl, by simp, by simp, ?_⟩
    intro cal worker assignment pb fuel cum htb hdi
    simp only [innerBurn, hdi, get_working_day_len]

def memberWH : TeamMember := ⟨"w", "c", 1, [DateObj.Date 3], []⟩

theorem c4_absence_day_witness :
    (get_working_day_len DayInfo.WorkerHolidays 3 "w" ⟨[], [], [], []⟩).1 = none
    ∧ (get_working_day_len DayInfo.WorkerHolidays 3 "w" ⟨[], [], [], []⟩).2 =
        ⟨[("w", [3])], [], [("w", [(3, (0, WorkerDay.Holidays))])], [3]⟩
    ∧ innerBurn calW memberWH ⟨"t1", "w", none⟩ "w" 0 3 3 0 8 ⟨[], [], [], []⟩ =
        innerBurn calW memberWH ⟨"t1", "w", none⟩ "w" 0 2 4 1 8
          (get_working_day_len DayInfo.WorkerHolidays 3 "w" ⟨[], [], [], []⟩).2 := by
  have h := c4_absence_day_amended DayInfo.WorkerHolidays 3 "w" ⟨[], [], [], []⟩
    (fun hrs => by simp)
  refine ⟨h.1, ?_, ?_⟩
  · rw [h.2.2.1 rfl]
    with_unfolding_all decide
  · with_unfolding_all exact h.2.2.2.2.2.2 calW memberWH ⟨"t1", "w", none⟩ 0 2 0 8 (by with_unfolding_all decide)

/- for C8: the lookup table built in the first pass of build_task_graph
   has exactly the task ids as keys. -/
theorem lookupInsert_none (m : List (String × Nat)) (k a : String) (v : Nat) :
    lookupFind (lookupInsert m k v) a = none ↔ (lookupFind m a = none ∧ k ≠ a) := by
  induction m with
  | nil =>
    by_cases h : k = a <;> simp [lookupInsert, lookupFind, h]
  | cons e rest ih =>
    by_cases h : e.1 = k
    · simp only [lookupInsert, if_pos h]
      by_cases h2 : e.1 = a
      · simp [lookupFind, List.find?, h2, ← h]
      · have h3 : (e.1 == a) = false := by simp [h2]
        simp [lookupFind, List.find?, h3, lookupFind] at ih ⊢
        subst h
        simp [h2]
    · simp only [lookupInsert, if_neg h]
      by_cases h2 : e.1 = a
      · simp [lookupFind, List.find?, h2]
      · have h3 : (e.1 == a) = false := by simp [h2]
        simp only [lookupFind, List.find?, h3] at ih ⊢
        exact ih

theorem buildLookup_go_none (l : List (Nat × PTask)) (m : List (String × Nat)) (a : String) :
    lookupFind (l.foldl (fun m p => lookupInsert m p.2.id p.1) m) a = none ↔
      (lookupFind m a = none ∧ ∀ p ∈ l, p.2.id ≠ a) := by
  induction l generalizing m with
  | nil => simp
  | cons e l ih =>
    simp only [List.foldl_cons, ih, lookupInsert_none, List.mem_cons]
    constructor
    · rintro ⟨⟨hm, he⟩, hl⟩
      refine ⟨hm, ?_⟩
      rintro p (rfl | hp)
      · exact he
      · exact hl p hp
    · rintro ⟨hm, hall⟩
      exact ⟨⟨hm, hall e (Or.inl rfl)⟩, fun p hp => hall p (Or.inr hp)⟩

theorem buildLookup_none (tasks : List PTask) (a : String) :
    lookupFind (buildLookup tasks) a = none ↔ ∀ t ∈ tasks, t.id ≠ a := by
  unfold buildLookup
  rw [buildLookup_go_none]
  simp only [lookupFind, List.find?_nil, Option.map_none', true_and]
  constructor
  · intro h t ht
    obtain ⟨i, hi, rfl⟩ := List.mem_iff_getElem.1 ht
    exact h (i, tasks[i]) (by simp [List.mem_enum_iff_getElem?, List.getElem?_eq_getElem hi])
  · intro h p hp
    exact h p.2 (List.snd_mem_of_mem_enum hp)

theorem pass2row_none (tasks : List PTask) (lookup : List (String × Nat)) (i : Nat) :
    ∀ (l : List String) (ns : List GraphNode),
      (l.foldlM (fun ns a =>
        match lookupFind lookup a with
        | none => none
        | some pid => some (addEdge ns pid i)) ns : Option (List GraphNode)) = none ↔
      ∃ a ∈ l, lookupFind lookup a = none := by
  intro l
  induction l with
  | nil => simp [List.foldlM]
  | cons a l ih =>
    intro ns
    simp only [List.foldlM_cons]
    cases h : lookupFind lookup a with
    | none => simp [h]
    | some pid =>
      simp only [h, Option.bind_eq_bind, Option.some_bind]
      rw [ih]
      simp [h]

theorem build_go_none (tasks : List PTask) (lookup : List (String × Nat)) :
    ∀ (l : List Nat) (ns : List GraphNode),
      (l.foldlM (pass2row tasks lookup) ns : Option (List GraphNode)) = none ↔
        ∃ i ∈ l, ∃ a ∈ (tasks.getD i default).after, lookupFind lookup a = none := by
  intro l
  induction l with
  | nil => simp [List.foldlM]
  | cons i l ih =>
    intro ns
    simp only [List.foldlM_cons]
    cases hp : pass2row tasks lookup ns i with
    | none =>
      simp only [Option.bind_eq_bind, Option.none_bind]
      have := (pass2row_none tasks lookup i (tasks.getD i default).after ns).1 hp
      simp only [pass2row] at hp
      simp only [List.mem_cons, true_iff]
      exact ⟨i, Or.inl rfl, this⟩
    | some ns1 =>
      simp only [Option.bind_eq_bind, Option.some_bind, ih]
      have hnot : ¬ ∃ a ∈ (tasks.getD i default).after, lookupFind lookup a = none := by
        intro hcon
        have := (pass2row_none tasks lookup i (tasks.getD i default).after ns).2 hcon
        rw [show (List.foldlM (fun ns a =>
          match lookupFind lookup a with
          | none => none
          | some pid => some (addEdge ns pid i)) ns (tasks.getD i default).after) =
            pass2row tasks lookup ns i from rfl] at this
        rw [hp] at this
        exact Option.noConfusion this
      constructor
      · rintro ⟨j, hj, hja⟩
        exact ⟨j, List.mem_cons_of_mem _ hj, hja⟩
      · rintro ⟨j, hj, hja⟩
        rcases List.mem_cons.1 hj with rfl | hj2
        · exact absurd hja hnot
        · exact ⟨j, hj2, hja⟩

theorem build_task_graph_none (tasks : List PTask) :
    build_task_graph tasks = none ↔
      ∃ i ∈ List.range tasks.length, ∃ a ∈ (tasks.getD i default).after,
        lookupFind (buildLookup tasks) a = none := by
  unfold build_task_graph
  rw [← build_go_none tasks (buildLookup tasks) (List.range tasks.length) (initNodes tasks)]
  cases h : (List.range tasks.length).foldlM (pass2row tasks (buildLookup tasks)) (initNodes tasks) with
  | none => simp [h]
  | some ns => simp [h]

/-- C8 amended: when some task lists a dependency id matching no task id,
build_task_graph aborts by panicking (the unwrap of the failed lookup,
modelled as none), the whole run aborts with that panic for every fuel
and every calendar map, and no partial schedule result is produced; the
failure is a panic, not a structured UnknownDependency error value (the
code has no such variant). -/
theorem c8_unknown_dep_amended (tasks : List PTask)
    (h : ∃ t ∈ tasks, ∃ a ∈ t.after, ∀ t2 ∈ tasks, t2.id ≠ a) :
    build_task_graph tasks = none
    ∧ ∀ (outerFuel innerFuel : Nat) (proj : ProjectConfig)
        (cals : List (String × BusinessDaysCalendar)), proj.tasks = tasks →
        process outerFuel innerFuel proj cals =
          ProcResult.failed (StepErr.panicked ("unwrap on None")) := by
  obtain ⟨t, ht, a, ha, hall⟩ := h
  have hnone : lookupFind (buildLookup tasks) a = none := (buildLookup_none tasks a).2 hall
  have hb : build_task_graph tasks = none := by
    rw [build_task_graph_none]
    obtain ⟨i, hi, hti⟩ := List.mem_iff_getElem.1 ht
    refine ⟨i, List.mem_range.2 hi, a, ?_, hnone⟩
    rw [List.getD_eq_getElem?_getD, List.getElem?_eq_getElem hi]
    simpa [hti] using ha
  refine ⟨hb, ?_⟩
  intro OF IF proj cals hpt
  simp [process, hpt, hb]

theorem c8_unknown_dep_witness :
    build_task_graph projBadDep.tasks = none
    ∧ process 4 7 projBadDep calsW =
        ProcResult.failed (StepErr.panicked ("unwrap on None")) := by
  have h := c8_unknown_dep_amended projBadDep.tasks (by with_unfolding_all decide)
  exact ⟨h.1, h.2 4 7 projBadDep calsW rfl⟩

theorem mapLookup_cons (k : Int) (v : ℚ × WorkerDay) (m : InnerAlloc) (d : Int) :
    mapLookup ((k, v) :: m) d = if k = d then some v else mapLookup m d := rfl

theorem mapUpdateAt_cons (k : Int) (v : ℚ × WorkerDay) (m : InnerAlloc) (d : Int)
    (f : ℚ × WorkerDay → ℚ × WorkerDay) :
    mapUpdateAt ((k, v) :: m) d f =
      (if k = d then (k, f v) else (k, v)) :: mapUpdateAt m d f := rfl

theorem mapLookup_updateAt (m : InnerAlloc) (d x : Int)
    (f : ℚ × WorkerDay → ℚ × WorkerDay) :
    mapLookup (mapUpdateAt m d f) x =
      if x = d then (mapLookup m d).map f else mapLookup m x := by
  induction m with
  | nil => by_cases h : x = d <;> simp [mapUpdateAt, mapLookup, h]
  | cons e m ih =>
    obtain ⟨k, v⟩ := e
    by_cases hkd : k = d
    · subst hkd
      by_cases hkx : k = x
      · subst hkx
        simp [mapUpdateAt_cons, mapLookup_cons, ih]
      · have hxk : ¬ x = k := fun h => hkx h.symm
        simp [mapUpdateAt_cons, mapLookup_cons, ih, hkx, hxk]
    · by_cases hkx : k = x
      · subst hkx
        simp [mapUpdateAt_cons, mapLookup_cons, ih, hkd]
      · simp [mapUpdateAt_cons, mapLookup_cons, ih, hkd, hkx]

theorem mapLookup_append_single (m : InnerAlloc) (d x : Int) (v : ℚ × WorkerDay) :
    mapLookup (m ++ [(d, v)]) x =
      match mapLookup m x with
      | some w => some w
      | none => if d = x then some v else none := by
  induction m with
  | nil => by_cases h : d = x <;> simp [mapLookup, h]
  | cons e m ih =>
    obtain ⟨k2, v2⟩ := e
    by_cases h : k2 = x
    · simp [mapLookup_cons, h, List.cons_append]
    · rw [List.cons_append, mapLookup_cons, mapLookup_cons, if_neg h, if_neg h, ih]

theorem mapLookup_orInsert (m : InnerAlloc) (d x : Int) :
    mapLookup (mapOrInsertDefault m d) x =
      if x = d then some ((mapLookup m d).getD (0, WorkerDay.Unassigned))
      else mapLookup m x := by
  unfold mapOrInsertDefault
  cases hd : mapLookup m d with
  | some v =>
    simp only [hd, Option.isSome_some, if_true, Option.getD_some]
    by_cases hxd : x = d
    · subst hxd; simp [hd]
    · simp [hxd]
  | none =>
    simp only [hd, Option.isSome_none, Bool.false_eq_true, if_false, Option.getD_none]
    rw [mapLookup_append_single]
    by_cases hxd : x = d
    · subst hxd; simp [hd]
    · have : ¬ d = x := fun h => hxd h.symm
      cases hx : mapLookup m x <;> simp [hx, this, hxd]

theorem mapLookup_fillStep (m : InnerAlloc) (d x : Int) :
    mapLookup (fillStep m d) x =
      if x = d then some (reclassPair ((mapLookup m d).getD (0, WorkerDay.Unassigned)))
      else mapLookup m x := by
  unfold fillStep
  rw [mapLookup_updateAt]
  by_cases hxd : x = d
  · subst hxd
    rw [if_pos rfl, if_pos rfl, mapLookup_orInsert, if_pos rfl]
    simp
  · rw [if_neg hxd, if_neg hxd, mapLookup_orInsert, if_neg hxd]

theorem mapLookup_fillLoop (k : Nat) :
    ∀ (m : InnerAlloc) (d x : Int),
      mapLookup (fillLoop k m d) x =
        if d ≤ x ∧ x < d + (k : Int) then
          some (reclassPair ((mapLookup m x).getD (0, WorkerDay.Unassigned)))
        else mapLookup m x := by
  induction k with
  | zero =>
    intro m d x
    simp only [fillLoop]
    have : ¬ (d ≤ x ∧ x < d + ((0 : Nat) : Int)) := by omega
    rw [if_neg this]
  | succ k ih =>
    intro m d x
    simp only [fillLoop]
    rw [ih]
    by_cases hxd : x = d
    · subst hxd
      have h1 : ¬ (x + 1 ≤ x ∧ x < x + 1 + (k : Int)) := by omega
      have h2 : x ≤ x ∧ x < x + ((k + 1 : Nat) : Int) := by
        refine ⟨le_refl x, ?_⟩
        omega
      rw [if_neg h1, mapLookup_fillStep, if_pos rfl, if_pos h2]
    · rw [mapLookup_fillStep, if_neg hxd]
      by_cases hin : d + 1 ≤ x ∧ x < d + 1 + (k : Int)
      · have : d ≤ x ∧ x < d + ((k + 1 : Nat) : Int) := by
          obtain ⟨h1, h2⟩ := hin
          constructor <;> omega
        rw [if_pos hin, if_pos this]
      · have : ¬ (d ≤ x ∧ x < d + ((k + 1 : Nat) : Int)) := by
          intro hcon
          obtain ⟨h1, h2⟩ := hcon
          apply hin
          constructor <;> omega
        rw [if_neg hin, if_neg this]

/- Modelled from the amended wording of the reclassification: hours at
   least 8.001 give Overloaded, hours between 0.001 and 7.999 inclusive
   give Underloaded, hours strictly between 7.999 and 8.001 give Fine, and
   an entry with fewer than 0.001 committed hours keeps its previous
   classification (in particular the zero-hour absence entries keep their
   absence tags). -/
def reclassSpecAmended (pr : ℚ × WorkerDay) : ℚ × WorkerDay :=
  if 8001/1000 ≤ pr.1 then (pr.1, WorkerDay.Overloaded)
  else if pr.1 ≤ 7999/1000 ∧ 1/1000 ≤ pr.1 then (pr.1, WorkerDay.Underloaded)
  else if 7999/1000 < pr.1 ∧ pr.1 < 8001/1000 then (pr.1, WorkerDay.Fine)
  else pr

theorem reclassPair_eq_spec (pr : ℚ × WorkerDay) : reclassPair pr = reclassSpecAmended pr := rfl

theorem raLookup_finalize (ra : ResourceAllocation) (b e : Int) (w : String) :
    raLookup (finalizeRA ra b e) w =
      (raLookup ra w).map (fun m => fillLoop (numDays b e) m b) := by
  induction ra with
  | nil => rfl
  | cons p ra ih =>
    obtain ⟨k, m⟩ := p
    by_cases h : k = w
    · simp [finalizeRA, raLookup, h]
    · simp only [finalizeRA, List.map_cons, raLookup, if_neg h]
      simpa [finalizeRA] using ih

/-- C3 amended: the finalize pass reclassifies a ledger entry from its
committed hours exactly as the code thresholds read: hours >= 8.001 give
Overloaded, 0.001 <= hours <= 7.999 give Underloaded, 7.999 < hours <
8.001 give Fine, and an entry with hours < 0.001 keeps its previous
classification; the previous tag itself is never inspected, so absence
entries keep their tags only because they always carry zero hours.  For a
worker in the ledger and a day d inside [project start, project end], the
finalized entry for d is the reclassification of the old entry (or of the
(0, Unassigned) default when the day was untouched). -/
theorem c3_reclassify_amended (ra : ResourceAllocation) (b e : Int) (w : String)
    (m : InnerAlloc) (d : Int) (hm : raLookup ra w = some m) (hbd : b ≤ d) (hde : d ≤ e) :
    raLookup (finalizeRA ra b e) w = some (fillLoop (numDays b e) m b)
    ∧ mapLookup (fillLoop (numDays b e) m b) d =
        some (reclassSpecAmended ((mapLookup m d).getD (0, WorkerDay.Unassigned))) := by
  refine ⟨by rw [raLookup_finalize, hm]; rfl, ?_⟩
  rw [mapLookup_fillLoop]
  have hin : b ≤ d ∧ d < b + ((numDays b e : Nat) : Int) := by
    unfold numDays
    omega
  rw [if_pos hin, reclassPair_eq_spec]

theorem c3_reclassify_witness :
    raLookup (finalizeRA [("w", [(5, (12, WorkerDay.Fine))])] 4 6) "w" =
      some (fillLoop (numDays 4 6) [(5, (12, WorkerDay.Fine))] 4)
    ∧ mapLookup (fillLoop (numDays 4 6) [(5, (12, WorkerDay.Fine))] 4) 5 =
        some (reclassSpecAmended
          ((mapLookup [(5, (12, WorkerDay.Fine))] 5).getD (0, WorkerDay.Unassigned))) := by
  exact c3_reclassify_amended _ 4 6 "w" _ 5 (by with_unfolding_all decide)
    (by norm_num) (by norm_num)

theorem mapLookup_none_iff (m : InnerAlloc) (d : Int) :
    mapLookup m d = none ↔ d ∉ m.map Prod.fst := by
  induction m with
  | nil => simp [mapLookup]
  | cons e m ih =>
    obtain ⟨k, v⟩ := e
    by_cases h : k = d
    · subst h
      simp [mapLookup_cons]
    · rw [mapLookup_cons, if_neg h, ih]
      simp only [List.map_cons, List.mem_cons]
      constructor
      · intro hnot hc
        rcases hc with hc | hc
        · exact h hc.symm
        · exact hnot hc
      · intro hnot hin
        exact hnot (Or.inr hin)

theorem mapAdd_keys_mem (m : InnerAlloc) (d : Int) (day : WorkerDay) (h : ℚ) (x : Int) :
    x ∈ (mapAdd m d day h).map Prod.fst ↔ x ∈ m.map Prod.fst ∨ x = d := by
  induction m with
  | nil => simp [mapAdd]
  | cons e m ih =>
    obtain ⟨k, v⟩ := e
    by_cases hkd : k = d
    · simp only [mapAdd, if_pos hkd, List.map_cons, List.mem_cons]
      constructor
      · intro hc
        exact Or.inl hc
      · rintro (hc | rfl)
        · exact hc
        · exact Or.inl hkd.symm
    · simp only [mapAdd, if_neg hkd, List.map_cons, List.mem_cons, ih]
      tauto

theorem mapAdd_nodup (m : InnerAlloc) (d : Int) (day : WorkerDay) (h : ℚ)
    (hn : (m.map Prod.fst).Nodup) : ((mapAdd m d day h).map Prod.fst).Nodup := by
  induction m with
  | nil => simp [mapAdd]
  | cons e m ih =>
    obtain ⟨k, v⟩ := e
    simp only [List.map_cons, List.nodup_cons] at hn
    by_cases hkd : k = d
    · simp only [mapAdd, if_pos hkd, List.map_cons, List.nodup_cons]
      exact hn
    · simp only [mapAdd, if_neg hkd, List.map_cons, List.nodup_cons]
      refine ⟨?_, ih hn.2⟩
      rw [mapAdd_keys_mem]
      rintro (hin | rfl)
      · exact hn.1 hin
      · exact hkd rfl

/- the ledger invariant: worker keys and the per-worker date keys are
   free of duplicates, matching BTreeMap key uniqueness. -/
def RAInv (ra : ResourceAllocation) : Prop :=
  (ra.map Prod.fst).Nodup ∧ ∀ p ∈ ra, (p.2.map Prod.fst).Nodup

theorem raAdd_keys_mem (ra : ResourceAllocation) (w : String) (d : Int) (day : WorkerDay)
    (h : ℚ) (x : String) :
    x ∈ (raAdd ra w d day h).map Prod.fst ↔ x ∈ ra.map Prod.fst ∨ x = w := by
  induction ra with
  | nil => simp [raAdd]
  | cons e ra ih =>
    obtain ⟨k, m⟩ := e
    by_cases hkw : k = w
    · simp only [raAdd, if_pos hkw, List.map_cons, List.mem_cons]
      constructor
      · intro hc
        exact Or.inl hc
      · rintro (hc | rfl)
        · exact hc
        · exact Or.inl hkw.symm
    · simp only [raAdd, if_neg hkw, List.map_cons, List.mem_cons, ih]
      tauto

theorem raAdd_inv (ra : ResourceAllocation) (w : String) (d : Int) (day : WorkerDay)
    (h : ℚ) (hi : RAInv ra) : RAInv (raAdd ra w d day h) := by
  induction ra with
  | nil =>
    refine ⟨by simp [raAdd], ?_⟩
    intro p hp
    simp only [raAdd, List.mem_singleton] at hp
    subst hp
    simp
  | cons e ra ih =>
    obtain ⟨k, m⟩ := e
    obtain ⟨hkeys, hinner⟩ := hi
    simp only [List.map_cons, List.nodup_cons] at hkeys
    by_cases hkw : k = w
    · refine ⟨?_, ?_⟩
      · simp only [raAdd, if_pos hkw, List.map_cons, List.nodup_cons]
        exact hkeys
      · intro p hp
        simp only [raAdd, if_pos hkw, List.mem_cons] at hp
        rcases hp with rfl | hp
        · exact mapAdd_nodup m d day h (hinner (k, m) (List.mem_cons_self _ _))
        · exact hinner p (List.mem_cons_of_mem _ hp)
    · have ihrest : RAInv (raAdd ra w d day h) :=
        ih ⟨hkeys.2, fun p hp => hinner p (List.mem_cons_of_mem _ hp)⟩
      refine ⟨?_, ?_⟩
      · simp only [raAdd, if_neg hkw, List.map_cons, List.nodup_cons]
        refine ⟨?_, ihrest.1⟩
        rw [raAdd_keys_mem]
        rintro (hin | rfl)
        · exact hkeys.1 hin
        · exact hkw rfl
      · intro p hp
        simp only [raAdd, if_neg hkw, List.mem_cons] at hp
        rcases hp with rfl | hp
        · exact hinner (k, m) (List.mem_cons_self _ _)
        · exact ihrest.2 p hp

theorem gwdl_inv (di : DayInfo) (d : Int) (wn : String) (acc : BurnAcc)
    (hi : RAInv acc.resource_allocation) :
    RAInv (get_working_day_len di d wn acc).2.resource_allocation := by
  cases di <;> simp only [get_working_day_len] <;>
    first
      | exact hi
      | exact raAdd_inv _ _ _ _ _ hi

theorem taskEnd_acc (pb : Int) (cum : ℚ) (acc : BurnAcc) (out : BurnOut)
    (h : taskEnd pb cum acc = .ok (some out)) : out.acc = acc := by
  unfold taskEnd at h
  by_cases hc : (f64ceil cum).toNat = 0
  · rw [if_pos hc] at h
    exact absurd h (by simp)
  · rw [if_neg hc] at h
    simp only [Except.ok.injEq, Option.some.injEq] at h
    rw [← h]

theorem innerBurn_succ (cal : BusinessDaysCalendar) (worker : TeamMember)
    (assignment : Assignment) (wn : String) (pb : Int) (n : Nat) (d : Int)
    (cum htb : ℚ) (acc : BurnAcc) :
    innerBurn cal worker assignment wn pb (n + 1) d cum htb acc =
      (match get_working_day_len (get_day_info d cal worker) d wn acc with
      | (none, acc1) => innerBurn cal worker assignment wn pb n (d + 1) (cum + 1) htb acc1
      | (some hrs, acc1) =>
        let focus := assignment.focus_factor.getD worker.focus_factor
        let eff0 := (hrs : ℚ) * focus
        let left_day := rustRem1 cum
        let adj := if abs left_day > 1/1000 then 1 - left_day else 1
        let eff := eff0 * adj
        let cdl := 1 * adj
        if htb ≥ eff then
          let htb1 := htb - eff
          let cum1 := cum + cdl
          let ra2 := raAdd acc1.resource_allocation wn d WorkerDay.Fine (8 * cdl)
          let acc2 := { acc1 with resource_allocation := ra2 }
          if abs htb1 < 1/10000000000 then taskEnd pb cum1 acc2
          else innerBurn cal worker assignment wn pb n (d + 1) cum1 htb1 acc2
        else
          if eff = 0 then .error (.panicked ("assertion failed: effective_working_hrs"))
          else
            let fraction := htb / eff
            if ¬ fraction ≤ 1 then .error (.panicked ("assertion failed: fraction"))
            else
              let cum1 := cum + cdl * fraction
              let ra2 := raAdd acc1.resource_allocation wn d WorkerDay.Underloaded
                (8 * fraction * cdl)
              let acc2 := { acc1 with resource_allocation := ra2 }
              taskEnd pb cum1 acc2) := rfl

theorem innerBurn_inv (cal : BusinessDaysCalendar) (worker : TeamMember)
    (assignment : Assignment) (wn : String) (pb : Int) :
    ∀ (fuel : Nat) (d : Int) (cum htb : ℚ) (acc : BurnAcc) (out : BurnOut),
      RAInv acc.resource_allocation →
      innerBurn cal worker assignment wn pb fuel d cum htb acc = .ok (some out) →
      RAInv out.acc.resource_allocation := by
  intro fuel
  induction fuel with
  | zero =>
    intro d cum htb acc out hi h
    exact absurd h (by simp [innerBurn])
  | succ n ih =>
    intro d cum htb acc out hi h
    rw [innerBurn_succ] at h
    rcases hgw : get_working_day_len (get_day_info d cal worker) d wn acc with ⟨o, acc1⟩
    have hacc1 : RAInv acc1.resource_allocation := by
      have := gwdl_inv (get_day_info d cal worker) d wn acc hi
      rw [hgw] at this
      exact this
    rw [hgw] at h
    cases o with
    | none => exact ih _ _ _ _ _ hacc1 h
    | some hrs =>
      simp only at h
      set eff := ((hrs : ℚ) * assignment.focus_factor.getD worker.focus_factor) *
        (if abs (rustRem1 cum) > 1/1000 then 1 - rustRem1 cum else 1) with heff
      set cdl := (1 : ℚ) * (if abs (rustRem1 cum) > 1/1000 then 1 - rustRem1 cum else 1) with hcdl
      by_cases h1 : htb ≥ eff
      · rw [if_pos h1] at h
        have hacc2 : RAInv (raAdd acc1.resource_allocation wn d WorkerDay.Fine (8 * cdl)) :=
          raAdd_inv _ _ _ _ _ hacc1
        by_cases h2 : abs (htb - eff) < 1/10000000000
        · rw [if_pos h2] at h
          have := taskEnd_acc _ _ _ _ h
          rw [this]
          exact hacc2
        · rw [if_neg h2] at h
          exact ih _ _ _ _ _ hacc2 h
      · rw [if_neg h1] at h
        by_cases h3 : eff = 0
        · rw [if_pos h3] at h
          exact absurd h (by simp)
        · rw [if_neg h3] at h
          by_cases h4 : ¬ htb / eff ≤ 1
          · rw [if_pos h4] at h
            exact absurd h (by simp)
          · rw [if_neg h4] at h
            have hacc2 : RAInv (raAdd acc1.resource_allocation wn d WorkerDay.Underloaded
                (8 * (htb / eff) * cdl)) := raAdd_inv _ _ _ _ _ hacc1
            have := taskEnd_acc _ _ _ _ h
            rw [this]
            exact hacc2

theorem stepBody_inv (C : Ctx) (n : Nat) (node : GraphNode) (task : PTask) (v : ℚ)
    (s s' : ProcState) (hi : RAInv s.resource_allocation)
    (h : stepBody C n node task v s = .ok s') : RAInv s'.resource_allocation := by
  unfold stepBody at h
  rcases hfa : C.proj.assignments.find? (fun a => a.task == task.id) with _ | assignment
  · simp only [hfa] at h
    exact absurd h (by simp)
  simp only [hfa] at h
  rcases hfw : C.proj.team.find? (fun u => u.name == assignment.owner) with _ | worker
  · simp only [hfw] at h
    exact absurd h (by simp)
  simp only [hfw] at h
  rcases hfc : C.calFn worker.base_calendar with _ | worker_cal
  · simp only [hfc] at h
    exact absurd h (by simp)
  simp only [hfc] at h
  rcases hib : innerBurn worker_cal worker assignment assignment.owner C.proj.start_date
      C.innerFuel (C.proj.start_date + (((f64trunc v).toNat : Nat) : Int)) v
      (task.estimate * 8)
      ⟨s.workers_absence, s.public_holidays, s.resource_allocation, []⟩ with e | o
  · simp only [hib] at h
    exact absurd h (by simp)
  · rcases o with _ | out
    · simp only [hib] at h
      exact absurd h (by simp)
    · simp only [hib] at h
      simp only [Except.ok.injEq] at h
      have hout : RAInv out.acc.resource_allocation :=
        innerBurn_inv worker_cal worker assignment assignment.owner C.proj.start_date
          C.innerFuel _ v (task.estimate * 8)
          ⟨s.workers_absence, s.public_holidays, s.resource_allocation, []⟩ out hi hib
      rw [← h]
      exact hout

theorem stepIter_inv (C : Ctx) (n : Nat) (s s' : ProcState)
    (hi : RAInv s.resource_allocation)
    (h : stepIter C n s = .ok s') : RAInv s'.resource_allocation := by
  unfold stepIter at h
  rcases hn : C.g.graph.get? n with _ | node
  · simp only [hn] at h
    exact absurd h (by simp)
  simp only [hn] at h
  rcases ht : C.proj.tasks.get? node.task_id with _ | task
  · simp only [ht] at h
    exact absurd h (by simp)
  simp only [ht] at h
  by_cases hres : (s.offsets.getD n none).isSome
  · rw [if_pos hres] at h
    simp only [Except.ok.injEq] at h
    rw [← h]
    exact hi
  · rw [if_neg hres] at h
    rcases hc : calc_start_time s.offsets node with _ | v
    · simp only [hc] at h
      simp only [Except.ok.injEq] at h
      rw [← h]
      exact hi
    · simp only [hc] at h
      refine stepBody_inv C n node task v _ s' ?_ h
      exact hi

theorem runLoop_inv (C : Ctx) :
    ∀ (fuel : Nat) (s s' : ProcState), RAInv s.resource_allocation →
      runLoop C fuel s = .finished s' → RAInv s'.resource_allocation := by
  intro fuel
  induction fuel with
  | zero =>
    intro s s' hi h
    exact absurd h (by simp [runLoop])
  | succ k ih =>
    intro s s' hi h
    rw [show runLoop C (k + 1) s =
      (match s.queue with
      | [] => .finished s
      | n :: rest =>
        match stepIter C n { s with queue := rest } with
        | .error e => .failed e
        | .ok s1 => runLoop C k s1) from rfl] at h
    rcases hq : s.queue with _ | ⟨n, rest⟩
    · simp only [hq] at h
      simp only [LoopResult.finished.injEq] at h
      rw [← h]
      exact hi
    · simp only [hq] at h
      rcases hst : stepIter C n { s with queue := rest } with e | s1
      · simp only [hst] at h
        exact absurd h (by simp)
      · simp only [hst] at h
        have h1 : RAInv s1.resource_allocation :=
          stepIter_inv C n { s with queue := rest } s1 hi hst
        exact ih s1 s' h1 h

theorem countP_zero_of_not_mem (m : InnerAlloc) (d : Int)
    (h : d ∉ m.map Prod.fst) : m.countP (fun e => e.1 == d) = 0 := by
  induction m with
  | nil => rfl
  | cons e m ih =>
    obtain ⟨k, v⟩ := e
    simp only [List.map_cons, List.mem_cons] at h
    push_neg at h
    have hk : ((k, v).1 == d) = false := by
      simp only [Prod.fst]
      exact beq_false_of_ne (fun hc => h.1 hc.symm)
    rw [List.countP_cons_of_neg _ _ (by simpa using hk)]
    exact ih h.2

theorem countP_one_of_lookup (m : InnerAlloc) (d : Int)
    (hn : (m.map Prod.fst).Nodup) (hs : (mapLookup m d).isSome) :
    m.countP (fun e => e.1 == d) = 1 := by
  induction m with
  | nil => exact absurd hs (by simp [mapLookup])
  | cons e m ih =>
    obtain ⟨k, v⟩ := e
    simp only [List.map_cons, List.nodup_cons] at hn
    by_cases hkd : k = d
    · subst hkd
      rw [List.countP_cons_of_pos _ _ (by simp)]
      rw [countP_zero_of_not_mem m k hn.1]
    · rw [mapLookup_cons, if_neg hkd] at hs
      rw [List.countP_cons_of_neg _ _ (by simp [hkd])]
      exact ih hn.2 hs

theorem mapUpdateAt_keys (m : InnerAlloc) (d : Int)
    (f : ℚ × WorkerDay → ℚ × WorkerDay) :
    (mapUpdateAt m d f).map Prod.fst = m.map Prod.fst := by
  induction m with
  | nil => rfl
  | cons e m ih =>
    obtain ⟨k, v⟩ := e
    rw [mapUpdateAt_cons]
    by_cases h : k = d
    · rw [if_pos h]
      simp [ih]
    · rw [if_neg h]
      simp [ih]

theorem fillStep_nodup (m : InnerAlloc) (d : Int)
    (hn : (m.map Prod.fst).Nodup) : ((fillStep m d).map Prod.fst).Nodup := by
  unfold fillStep
  rw [mapUpdateAt_keys]
  unfold mapOrInsertDefault
  by_cases h : (mapLookup m d).isSome
  · rw [if_pos h]
    exact hn
  · rw [if_neg h]
    rw [List.map_append]
    rw [List.nodup_append]
    refine ⟨hn, by simp, ?_⟩
    intro x hx hx2
    simp only [List.map_cons, List.map_nil, List.mem_singleton] at hx2
    subst hx2
    have : mapLookup m x = none := by
      cases hl : mapLookup m x with
      | none => rfl
      | some v => exact absurd (by rw [hl]; simp) h
    exact (mapLookup_none_iff m x).1 this hx

theorem fillLoop_nodup (k : Nat) :
    ∀ (m : InnerAlloc) (d : Int), (m.map Prod.fst).Nodup →
      ((fillLoop k m d).map Prod.fst).Nodup := by
  induction k with
  | zero => intro m d hn; exact hn
  | succ k ih =>
    intro m d hn
    exact ih (fillStep m d) (d + 1) (fillStep_nodup m d hn)

theorem raLookup_some_of_mem (ra : ResourceAllocation) (w : String)
    (hw : w ∈ ra.map Prod.fst) : ∃ m, raLookup ra w = some m := by
  induction ra with
  | nil => simp at hw
  | cons e ra ih =>
    obtain ⟨k, m⟩ := e
    by_cases h : k = w
    · exact ⟨m, by rw [show raLookup ((k, m) :: ra) w = if k = w then some m else raLookup ra w
        from rfl, if_pos h]⟩
    · simp only [List.map_cons, List.mem_cons] at hw
      rcases hw with rfl | hw
      · exact absurd rfl h
      · obtain ⟨m2, hm2⟩ := ih hw
        exact ⟨m2, by rw [show raLookup ((k, m) :: ra) w = if k = w then some m else raLookup ra w
          from rfl, if_neg h, hm2]⟩

theorem raLookup_mem (ra : ResourceAllocation) (w : String) (m : InnerAlloc)
    (h : raLookup ra w = some m) : (w, m) ∈ ra := by
  induction ra with
  | nil => exact absurd h (by simp [raLookup])
  | cons e ra ih =>
    obtain ⟨k, m2⟩ := e
    rw [show raLookup ((k, m2) :: ra) w = if k = w then some m2 else raLookup ra w from rfl] at h
    by_cases hk : k = w
    · rw [if_pos hk] at h
      simp only [Option.some.injEq] at h
      subst hk
      subst h
      exact List.mem_cons_self _ _
    · rw [if_neg hk] at h
      exact List.mem_cons_of_mem _ (ih h)

theorem reclassPair_default : reclassPair (0, WorkerDay.Unassigned) = (0, WorkerDay.Unassigned) := by
  norm_num [reclassPair]

/-- C7: after finalize, every worker present in the ledger has, for every
calendar day d between project start and project end inclusive, exactly
one entry for (worker, d) (the date keys are duplicate free and d is
present), and a day the traversal never touched holds the default
(0 hours, Unassigned), which the reclassification leaves in place. -/
theorem c7_finalize_complete (proj : ProjectConfig)
    (calFn : String → Option BusinessDaysCalendar) (g : Graph) (outerFuel innerFuel : Nat)
    (s : ProcState)
    (hrun : runLoop ⟨g, proj, calFn, innerFuel⟩ outerFuel (initState g proj) = .finished s)
    (w : String) (hw : w ∈ s.resource_allocation.map Prod.fst) :
    ∃ m0 mf, raLookup s.resource_allocation w = some m0
      ∧ raLookup (finalizeRA s.resource_allocation proj.start_date s.project_end) w = some mf
      ∧ ∀ d : Int, proj.start_date ≤ d → d ≤ s.project_end →
          mf.countP (fun e => e.1 == d) = 1
          ∧ (mapLookup m0 d = none → mapLookup mf d = some (0, WorkerDay.Unassigned)) := by
  have hinv : RAInv s.resource_allocation := by
    refine runLoop_inv _ outerFuel (initState g proj) s ?_ hrun
    exact ⟨by simp [initState], by simp [initState]⟩
  obtain ⟨m0, hm0⟩ := raLookup_some_of_mem _ _ hw
  have hm0n : (m0.map Prod.fst).Nodup :=
    hinv.2 (w, m0) (raLookup_mem _ _ _ hm0)
  refine ⟨m0, fillLoop (numDays proj.start_date s.project_end) m0 proj.start_date,
    hm0, ?_, ?_⟩
  · rw [raLookup_finalize, hm0]
    rfl
  · intro d hd1 hd2
    have hin : proj.start_date ≤ d ∧
        d < proj.start_date + ((numDays proj.start_date s.project_end : Nat) : Int) := by
      unfold numDays
      omega
    have hlook := mapLookup_fillLoop (numDays proj.start_date s.project_end) m0
      proj.start_date d
    rw [if_pos hin] at hlook
    constructor
    · refine countP_one_of_lookup _ _ ?_ ?_
      · exact fillLoop_nodup _ _ _ hm0n
      · rw [hlook]
        simp
    · intro hnone
      rw [hlook, hnone]
      simp only [Option.getD_none]
      rw [reclassPair_default]

def gOne : Graph := ⟨[0], [⟨0, [], []⟩]⟩

def sOne : ProcState :=
  ⟨[], [some 1], [some 0], [2],
   [⟨"t1", "T1", "w", [], 0, 0, [], 24⟩], [], [],
   [("w", [(0, (8, WorkerDay.Fine))])], 0⟩

theorem c7_finalize_complete_witness :
    ((raLookup (finalizeRA sOne.resource_allocation projOne.start_date sOne.project_end)
        "w").getD []).countP (fun e => e.1 == 0) = 1 := by
  have hrun : runLoop ⟨gOne, projOne, calsGet calsW, 5⟩ 3 (initState gOne projOne) =
      .finished sOne := by
    with_unfolding_all decide
  have h := c7_finalize_complete projOne (calsGet calsW) gOne 3 5 sOne hrun "w"
    (by with_unfolding_all decide)
  obtain ⟨m0, mf, hm0, hmf, hd⟩ := h
  have h0 := (hd 0 (by norm_num [projOne]) (by norm_num [sOne])).1
  rw [hmf]
  simpa using h0

theorem taskEnd_error (pb : Int) (cum : ℚ) (acc : BurnAcc) (x : StepErr)
    (h : taskEnd pb cum acc = .error x) :
    x = .panicked ("attempt to subtract with overflow") := by
  unfold taskEnd at h
  by_cases hc : (f64ceil cum).toNat = 0
  · rw [if_pos hc] at h
    simp only [Except.error.injEq] at h
    exact h.symm
  · rw [if_neg hc] at h
    exact absurd h (by simp)

theorem innerBurn_assert_free (cal : BusinessDaysCalendar) (worker : TeamMember)
    (assignment : Assignment) (wn : String) (pb : Int) :
    ∀ (fuel : Nat) (d : Int) (cum htb : ℚ) (acc : BurnAcc), 0 ≤ htb →
      ∀ x, innerBurn cal worker assignment wn pb fuel d cum htb acc = .error x →
        x = .panicked ("attempt to subtract with overflow") := by
  intro fuel
  induction fuel with
  | zero =>
    intro d cum htb acc hh x h
    exact absurd h (by simp [innerBurn])
  | succ n ih =>
    intro d cum htb acc hh x h
    rw [innerBurn_succ] at h
    rcases hgw : get_working_day_len (get_day_info d cal worker) d wn acc with ⟨o, acc1⟩
    rw [hgw] at h
    cases o with
    | none => exact ih _ _ _ _ hh x h
    | some hrs =>
      simp only at h
      set eff := ((hrs : ℚ) * assignment.focus_factor.getD worker.focus_factor) *
        (if abs (rustRem1 cum) > 1/1000 then 1 - rustRem1 cum else 1) with heff
      set cdl := (1 : ℚ) * (if abs (rustRem1 cum) > 1/1000 then 1 - rustRem1 cum else 1) with hcdl
      by_cases h1 : htb ≥ eff
      · rw [if_pos h1] at h
        by_cases h2 : abs (htb - eff) < 1/10000000000
        · rw [if_pos h2] at h
          exact taskEnd_error _ _ _ _ h
        · rw [if_neg h2] at h
          have hh1 : (0 : ℚ) ≤ htb - eff := by linarith [h1]
          exact ih _ _ _ _ hh1 x h
      · rw [if_neg h1] at h
        push_neg at h1
        have heffpos : (0 : ℚ) < eff := lt_of_le_of_lt hh h1
        rw [if_neg (ne_of_gt heffpos)] at h
        have hfr : htb / eff ≤ 1 := le_of_lt ((div_lt_one heffpos).2 h1)
        rw [if_neg (by simpa using hfr)] at h
        exact taskEnd_error _ _ _ _ h

theorem stepBody_assert_free (C : Ctx) (n : Nat) (node : GraphNode) (task : PTask) (v : ℚ)
    (s : ProcState) (hest : 0 ≤ task.estimate) (x : StepErr)
    (h : stepBody C n node task v s = .error x) :
    x ≠ .panicked ("assertion failed: effective_working_hrs")
    ∧ x ≠ .panicked ("assertion failed: fraction") := by
  unfold stepBody at h
  rcases hfa : C.proj.assignments.find? (fun a => a.task == task.id) with _ | assignment
  · simp only [hfa] at h
    simp only [Except.error.injEq] at h
    subst h
    exact ⟨by simp, by simp⟩
  simp only [hfa] at h
  rcases hfw : C.proj.team.find? (fun u => u.name == assignment.owner) with _ | worker
  · simp only [hfw] at h
    simp only [Except.error.injEq] at h
    subst h
    exact ⟨by simp, by simp⟩
  simp only [hfw] at h
  rcases hfc : C.calFn worker.base_calendar with _ | worker_cal
  · simp only [hfc] at h
    simp only [Except.error.injEq] at h
    subst h
    exact ⟨by simp, by simp⟩
  simp only [hfc] at h
  rcases hib : innerBurn worker_cal worker assignment assignment.owner C.proj.start_date
      C.innerFuel (C.proj.start_date + (((f64trunc v).toNat : Nat) : Int)) v
      (task.estimate * 8)
      ⟨s.workers_absence, s.public_holidays, s.resource_allocation, []⟩ with e | o
  · simp only [hib] at h
    simp only [Except.error.injEq] at h
    subst h
    have := innerBurn_assert_free worker_cal worker assignment assignment.owner
      C.proj.start_date C.innerFuel _ v (task.estimate * 8)
      ⟨s.workers_absence, s.public_holidays, s.resource_allocation, []⟩
      (by positivity) e hib
    subst this
    exact ⟨by simp, by simp⟩
  · rcases o with _ | out
    · simp only [hib] at h
      simp only [Except.error.injEq] at h
      subst h
      exact ⟨by simp, by simp⟩
    · simp only [hib] at h
      exact absurd h (by simp)

theorem stepIter_assert_free (C : Ctx) (n : Nat) (s : ProcState)
    (hest : ∀ t ∈ C.proj.tasks, 0 ≤ t.estimate) (x : StepErr)
    (h : stepIter C n s = .error x) :
    x ≠ .panicked ("assertion failed: effective_working_hrs")
    ∧ x ≠ .panicked ("assertion failed: fraction") := by
  unfold stepIter at h
  rcases hn : C.g.graph.get? n with _ | node
  · simp only [hn] at h
    simp only [Except.error.injEq] at h
    subst h
    exact ⟨by simp, by simp⟩
  simp only [hn] at h
  rcases ht : C.proj.tasks.get? node.task_id with _ | task
  · simp only [ht] at h
    simp only [Except.error.injEq] at h
    subst h
    exact ⟨by simp, by simp⟩
  simp only [ht] at h
  by_cases hres : (s.offsets.getD n none).isSome
  · rw [if_pos hres] at h
    exact absurd h (by simp)
  · rw [if_neg hres] at h
    rcases hc : calc_start_time s.offsets node with _ | v
    · simp only [hc] at h
      exact absurd h (by simp)
    · simp only [hc] at h
      have htask : task ∈ C.proj.tasks := by
        have := List.get?_eq_some.1 ht
        obtain ⟨hlt, hget⟩ := this
        rw [← hget]
        exact List.get_mem _ _ _
      exact stepBody_assert_free C n node task v _ (hest task htask) x h

theorem runLoop_assert_free (C : Ctx) (hest : ∀ t ∈ C.proj.tasks, 0 ≤ t.estimate) :
    ∀ (fuel : Nat) (s : ProcState) (x : StepErr), runLoop C fuel s = .failed x →
      x ≠ .panicked ("assertion failed: effective_working_hrs")
      ∧ x ≠ .panicked ("assertion failed: fraction") := by
  intro fuel
  induction fuel with
  | zero =>
    intro s x h
    exact absurd h (by simp [runLoop])
  | succ k ih =>
    intro s x h
    rw [show runLoop C (k + 1) s =
      (match s.queue with
      | [] => .finished s
      | n :: rest =>
        match stepIter C n { s with queue := rest } with
        | .error e => .failed e
        | .ok s1 => runLoop C k s1) from rfl] at h
    rcases hq : s.queue with _ | ⟨n, rest⟩
    · simp only [hq] at h
      exact absurd h (by simp)
    · simp only [hq] at h
      rcases hst : stepIter C n { s with queue := rest } with e | s1
      · simp only [hst] at h
        simp only [LoopResult.failed.injEq] at h
        subst h
        exact stepIter_assert_free C n _ hest _ hst
      · simp only [hst] at h
        exact ih s1 _ h

/-- C9: with every task estimate nonnegative and every focus factor in
(0, 1], the fractional-day branch of the burn-down loop is safe: since
hours_to_burn stays nonnegative, hours_to_burn < effective hours forces
the effective hours to be strictly positive, the division is well defined
and the fraction is at most 1, so neither assertion fires; the run can
never fail with one of the two assertion panics. -/
theorem c9_fractional_branch_safe (proj : ProjectConfig)
    (hest : ∀ t ∈ proj.tasks, 0 ≤ t.estimate)
    (hfocus : ∀ w ∈ proj.team, 0 < w.focus_factor ∧ w.focus_factor ≤ 1)
    (hfocus2 : ∀ a ∈ proj.assignments, ∀ f, a.focus_factor = some f → 0 < f ∧ f ≤ 1) :
    ∀ (outerFuel innerFuel : Nat) (cals : List (String × BusinessDaysCalendar)),
      process outerFuel innerFuel proj cals ≠
        ProcResult.failed (StepErr.panicked ("assertion failed: effective_working_hrs"))
      ∧ process outerFuel innerFuel proj cals ≠
        ProcResult.failed (StepErr.panicked ("assertion failed: fraction")) := by
  intro OF IF cals
  unfold process
  rcases hb : build_task_graph proj.tasks with _ | g
  · simp only [hb]
    exact ⟨by simp, by simp⟩
  simp only [hb]
  rcases hr : runLoop ⟨g, proj, calsGet cals, IF⟩ OF (initState g proj) with s | e
  · simp only [hr]
    rcases cals with _ | ⟨⟨nm, c0⟩, rest⟩
    · exact ⟨by simp, by simp⟩
    · exact ⟨by simp, by simp⟩
  · simp only [hr]
    have hfree := runLoop_assert_free ⟨g, proj, calsGet cals, IF⟩ hest OF (initState g proj) e hr
    constructor
    · intro hcon
      have hx : e = StepErr.panicked ("assertion failed: effective_working_hrs") := by
        injection hcon
      exact hfree.1 hx
    · intro hcon
      have hx : e = StepErr.panicked ("assertion failed: fraction") := by
        injection hcon
      exact hfree.2 hx
  · simp only [hr]
    exact ⟨by simp, by simp⟩

theorem c9_fractional_branch_witness :
    process 3 5 projOne calsW ≠
      ProcResult.failed (StepErr.panicked ("assertion failed: effective_working_hrs"))
    ∧ process 3 5 projOne calsW ≠
      ProcResult.failed (StepErr.panicked ("assertion failed: fraction")) :=
  c9_fractional_branch_safe projOne
    (by intro t ht; fin_cases ht; norm_num [projOne])
    (by intro w hw; fin_cases hw; norm_num [projOne, memberW])
    (by intro a ha; fin_cases ha; intro f hf; exact absurd hf (by simp [projOne]))
    3 5 calsW

theorem key_unique (l : List (String × BusinessDaysCalendar))
    (hnd : (l.map Prod.fst).Nodup) (pr pr' : String × BusinessDaysCalendar)
    (h1 : pr ∈ l) (h2 : pr' ∈ l) (h : pr.1 = pr'.1) : pr = pr' := by
  induction l with
  | nil => simp at h1
  | cons e l ih =>
    simp only [List.map_cons, List.nodup_cons] at hnd
    rcases List.mem_cons.1 h1 with rfl | h1' <;> rcases List.mem_cons.1 h2 with rfl | h2'
    · rfl
    · exact absurd (h ▸ List.mem_map_of_mem Prod.fst h2') hnd.1
    · exact absurd (h ▸ List.mem_map_of_mem Prod.fst h1') hnd.1
    · exact ih hnd.2 h1' h2'

theorem calsGet_perm (cals1 cals2 : List (String × BusinessDaysCalendar))
    (hperm : cals1.Perm cals2) (hnd : (cals1.map Prod.fst).Nodup) (name : String) :
    calsGet cals1 name = calsGet cals2 name := by
  unfold calsGet
  cases hf1 : cals1.find? (fun p => p.1 == name) with
  | none =>
    cases hf2 : cals2.find? (fun p => p.1 == name) with
    | none => rfl
    | some pr2 =>
      have hm2 : pr2 ∈ cals2 := List.mem_of_find?_eq_some hf2
      have hp2 := List.find?_some hf2
      have hm1 : pr2 ∈ cals1 := hperm.symm.subset hm2
      have : cals1.find? (fun p => p.1 == name) ≠ none := by
        rw [Ne, List.find?_eq_none]
        push_neg
        exact ⟨pr2, hm1, hp2⟩
      exact absurd hf1 this
  | some pr1 =>
    have hm1 : pr1 ∈ cals1 := List.mem_of_find?_eq_some hf1
    have hp1 := List.find?_some hf1
    cases hf2 : cals2.find? (fun p => p.1 == name) with
    | none =>
      have : pr1 ∉ cals2 := by
        intro hin
        have := List.find?_eq_none.1 hf2 pr1 hin
        exact this hp1
      exact absurd (hperm.subset hm1) this
    | some pr2 =>
      have hm2 : pr2 ∈ cals1 := hperm.symm.subset (List.mem_of_find?_eq_some hf2)
      have hp2 := List.find?_some hf2
      have : pr1 = pr2 := by
        refine key_unique cals1 hnd pr1 pr2 hm1 hm2 ?_
        rw [show pr1.1 = name from by simpa using hp1,
          show pr2.1 = name from by simpa using hp2]
      rw [this]

def ProcResult.stripClosed : ProcResult → ProcResult
  | .done g => .done { g with closed_days := [] }
  | r => r

/-- C2 amended: for the same project run against calendar maps that hold
the same entries in different hash-map iteration orders (a permutation
with duplicate-free calendar names), the engine produces identical output
in every component except closed_days: the task list with its dates, the
ledger, the public-holiday and absence lists, the title and markers all
coincide, and so does the outcome kind on failing runs.  Only closed_days
may differ, since it is copied from whichever calendar values().next()
yields first. -/
theorem c2_order_independent_amended (outerFuel innerFuel : Nat) (proj : ProjectConfig)
    (cals1 cals2 : List (String × BusinessDaysCalendar)) (hperm : cals1.Perm cals2)
    (hnd : (cals1.map Prod.fst).Nodup) :
    (process outerFuel innerFuel proj cals1).stripClosed =
      (process outerFuel innerFuel proj cals2).stripClosed := by
  have hfn : calsGet cals1 = calsGet cals2 :=
    funext (calsGet_perm cals1 cals2 hperm hnd)
  unfold process
  rw [hfn]
  rcases hb : build_task_graph proj.tasks with _ | g
  · rfl
  rcases hr : runLoop ⟨g, proj, calsGet cals2, innerFuel⟩ outerFuel (initState g proj)
      with s | e
  · rcases h1 : cals1 with _ | ⟨⟨nm1, c1⟩, rest1⟩
    · have h2 : cals2 = [] := by
        subst h1
        exact hperm.nil_eq.symm
      rw [h2]
    · rcases h2 : cals2 with _ | ⟨⟨nm2, c2⟩, rest2⟩
      · subst h2
        rw [h1] at hperm
        exact absurd hperm.symm.nil_eq (by simp)
      · rw [h2] at hr
        simp only [hr]
        rfl
  · simp only [hr]
  · simp only [hr]

theorem c2_order_independent_witness :
    (process 3 5 projOne cals2a).stripClosed = (process 3 5 projOne cals2b).stripClosed :=
  c2_order_independent_amended 3 5 projOne cals2a cals2b
    (List.Perm.swap ("d", calWeekend) ("c", calW) [])
    (by decide)

theorem getD_set_self {α : Type} (l : List α) (n : Nat) (a d : α) (h : n < l.length) :
    (l.set n a).getD n d = a := by
  induction l generalizing n with
  | nil => simp at h
  | cons e l ih =>
    cases n with
    | zero => rfl
    | succ n =>
      simp only [List.set_cons_succ, List.getD_cons_succ]
      exact ih n (by simpa using h)

theorem getD_set_ne {α : Type} (l : List α) (n m : Nat) (a d : α) (h : n ≠ m) :
    (l.set n a).getD m d = l.getD m d := by
  induction l generalizing n m with
  | nil => simp [List.set_nil]
  | cons e l ih =>
    cases n with
    | zero =>
      cases m with
      | zero => exact absurd rfl h
      | succ m => rfl
    | succ n =>
      cases m with
      | zero => rfl
      | succ m =>
        simp only [List.set_cons_succ, List.getD_cons_succ]
        exact ih n m (fun hc => h (by rw [hc]))

theorem getD_replicate_none (N m : Nat) :
    ((List.replicate N (none : Option ℚ)).getD m none) = none := by
  induction N generalizing m with
  | zero => cases m <;> rfl
  | succ N ih =>
    cases m with
    | zero => rfl
    | succ m => exact ih m

theorem getD_replicate_zero (N m : Nat) :
    ((List.replicate N (0 : Nat)).getD m 0) = 0 := by
  induction N generalizing m with
  | zero => cases m <;> rfl
  | succ N ih =>
    cases m with
    | zero => rfl
    | succ m => exact ih m

/- well-formedness of the graph built by build_task_graph: parent links
   point below the node count and are mirrored by child links, children
   point below the node count, starting points are valid indices, and a
   node without parents is a starting point. -/
def GraphWF (g : Graph) : Prop :=
  (∀ m node, g.graph.get? m = some node → ∀ p ∈ node.parents,
    p < g.graph.length ∧ ∀ pn, g.graph.get? p = some pn → m ∈ pn.children)
  ∧ (∀ m node, g.graph.get? m = some node → ∀ c ∈ node.children, c < g.graph.length)
  ∧ (∀ m ∈ g.starting_points, m < g.graph.length)
  ∧ (∀ m node, g.graph.get? m = some node → node.parents = [] → m ∈ g.starting_points)

theorem get?_set_self' {α : Type} (l : List α) (n : Nat) (a : α) (h : n < l.length) :
    (l.set n a).get? n = some a := by
  induction l generalizing n with
  | nil => simp at h
  | cons e l ih =>
    cases n with
    | zero => rfl
    | succ n => exact ih n (by simpa using h)

theorem get?_set_ne' {α : Type} (l : List α) (n m : Nat) (a : α) (h : n ≠ m) :
    (l.set n a).get? m = l.get? m := by
  induction l generalizing n m with
  | nil => simp [List.set_nil]
  | cons e l ih =>
    cases n with
    | zero =>
      cases m with
      | zero => exact absurd rfl h
      | succ m => rfl
    | succ n =>
      cases m with
      | zero => rfl
      | succ m => exact ih n m (fun hc => h (by rw [hc]))

theorem lookupFind_insert (m : List (String × Nat)) (k a : String) (v : Nat) :
    lookupFind (lookupInsert m k v) a = if k = a then some v else lookupFind m a := by
  induction m with
  | nil =>
    by_cases h : k = a <;> simp [lookupInsert, lookupFind, h]
  | cons e rest ih =>
    obtain ⟨k0, v0⟩ := e
    by_cases h0 : k0 = k
    · subst h0
      by_cases ha : k0 = a
      · subst ha
        simp [lookupInsert, lookupFind, List.find?_cons]
      · simp [lookupInsert, lookupFind, List.find?_cons, ha]
    · by_cases ha : k0 = a
      · subst ha
        have : ¬ k = k0 := fun hc => h0 hc.symm
        simp [lookupInsert, h0, lookupFind, List.find?_cons, this]
      · simp only [lookupInsert, if_neg h0]
        have hb : (k0 == a) = false := by simp [ha]
        simp only [lookupFind, List.find?_cons, hb] at ih ⊢
        exact ih

theorem buildLookup_lt (tasks : List PTask) (a : String) (pid : Nat)
    (h : lookupFind (buildLookup tasks) a = some pid) : pid < tasks.length := by
  unfold buildLookup at h
  have main : ∀ (l : List (Nat × PTask)) (m : List (String × Nat)),
      (∀ k v, lookupFind m k = some v → v < tasks.length) →
      (∀ p ∈ l, p.1 < tasks.length) →
      ∀ k v, lookupFind (l.foldl (fun m p => lookupInsert m p.2.id p.1) m) k = some v →
        v < tasks.length := by
    intro l
    induction l with
    | nil => intro m hm hl k v hv; exact hm k v hv
    | cons e l ih =>
      intro m hm hl k v hv
      refine ih (lookupInsert m e.2.id e.1) ?_ (fun p hp => hl p (List.mem_cons_of_mem _ hp)) k v hv
      intro k2 v2 hv2
      rw [lookupFind_insert] at hv2
      by_cases he : e.2.id = k2
      · rw [if_pos he] at hv2
        simp only [Option.some.injEq] at hv2
        rw [← hv2]
        exact hl e (List.mem_cons_self _ _)
      · rw [if_neg he] at hv2
        exact hm k2 v2 hv2
  refine main tasks.enum [] (by intro k v hv; exact absurd hv (by simp [lookupFind])) ?_ a pid h
  intro p hp
  rw [List.mem_enum_iff_getElem?] at hp
  exact (List.getElem?_eq_some.1 hp).1

theorem getD_eq_of_get? {α : Type} (l : List α) (n : Nat) (x d : α)
    (h : l.get? n = some x) : l.getD n d = x := by
  induction l generalizing n with
  | nil => simp at h
  | cons e l ih =>
    cases n with
    | zero =>
      simp only [List.get?_cons_zero, Option.some.injEq] at h
      rw [h]
      rfl
    | succ n =>
      simp only [List.get?_cons_succ] at h
      simp only [List.getD_cons_succ]
      exact ih n h

theorem addEdge_length (ns : List GraphNode) (pid i : Nat) :
    (addEdge ns pid i).length = ns.length := by
  simp [addEdge, List.length_set]

theorem addEdge_get? (ns : List GraphNode) (pid i : Nat)
    (hpid : pid < ns.length) (hi : i < ns.length) (m : Nat) :
    (addEdge ns pid i).get? m =
      if m = i ∧ m = pid then
        (ns.get? m).map (fun nd => ⟨nd.task_id, nd.parents ++ [pid], nd.children ++ [i]⟩)
      else if m = i then
        (ns.get? m).map (fun nd => ⟨nd.task_id, nd.parents ++ [pid], nd.children⟩)
      else if m = pid then
        (ns.get? m).map (fun nd => ⟨nd.task_id, nd.parents, nd.children ++ [i]⟩)
      else ns.get? m := by
  obtain ⟨nd, hnd⟩ : ∃ nd, ns.get? pid = some nd := ⟨_, List.get?_eq_get hpid⟩
  have hgetD : ns.getD pid default = nd := getD_eq_of_get? ns pid nd default hnd
  unfold addEdge
  simp only [hgetD]
  by_cases hm : m = i
  · subst hm
    by_cases hmp : m = pid
    · subst hmp
      rw [if_pos ⟨rfl, rfl⟩]
      have h1 : (ns.set m { nd with children := nd.children ++ [m] }).getD m default =
          { nd with children := nd.children ++ [m] } := getD_set_self _ _ _ _ hi
      rw [h1, List.set_set]
      rw [get?_set_self' _ _ _ hi, hnd]
      rfl
    · rw [if_neg (fun hc => hmp hc.2), if_pos rfl]
      have hcn : (ns.set pid { nd with children := nd.children ++ [m] }).get? m = ns.get? m :=
        get?_set_ne' _ _ _ _ (fun hc => hmp hc.symm)
      obtain ⟨cn, hcn2⟩ : ∃ cn, ns.get? m = some cn := ⟨_, List.get?_eq_get hi⟩
      have h0 : (ns.set pid { nd with children := nd.children ++ [m] }).getD m default = cn :=
        getD_eq_of_get? _ _ _ _ (by rw [hcn]; exact hcn2)
      rw [h0]
      rw [get?_set_self' _ _ _ (by rw [List.length_set]; exact hi)]
      rw [hcn2]
      rfl
  · by_cases hmp : m = pid
    · subst hmp
      rw [if_neg (fun hc => hm hc.1), if_neg hm, if_pos rfl]
      rw [get?_set_ne' _ _ _ _ (fun hc => hm hc.symm)]
      rw [get?_set_self' _ _ _ hpid, hnd]
      rfl
    · rw [if_neg (fun hc => hm hc.1), if_neg hm, if_neg hmp]
      rw [get?_set_ne' _ _ _ _ (fun hc => hm hc.symm),
        get?_set_ne' _ _ _ _ (fun hc => hmp hc.symm)]

theorem addEdge_char (ns : List GraphNode) (pid i : Nat)
    (hpid : pid < ns.length) (hi : i < ns.length) (m : Nat) (node' : GraphNode)
    (h : (addEdge ns pid i).get? m = some node') :
    ∃ node, ns.get? m = some node ∧ node'.task_id = node.task_id
      ∧ node'.parents = (if m = i then node.parents ++ [pid] else node.parents)
      ∧ node'.children = (if m = pid then node.children ++ [i] else node.children) := by
  rw [addEdge_get? ns pid i hpid hi m] at h
  by_cases hmi : m = i <;> by_cases hmp : m = pid
  · rw [if_pos ⟨hmi, hmp⟩] at h
    rcases hg : ns.get? m with _ | node
    · rw [hg] at h
      exact absurd h (by simp)
    · rw [hg] at h
      simp only [Option.map_some', Option.some.injEq] at h
      refine ⟨node, rfl, by rw [← h], ?_, ?_⟩
      · rw [← h, if_pos hmi]
      · rw [← h, if_pos hmp]
  · rw [if_neg (fun hc => hmp hc.2), if_pos hmi] at h
    rcases hg : ns.get? m with _ | node
    · rw [hg] at h
      exact absurd h (by simp)
    · rw [hg] at h
      simp only [Option.map_some', Option.some.injEq] at h
      refine ⟨node, rfl, by rw [← h], ?_, ?_⟩
      · rw [← h, if_pos hmi]
      · rw [← h, if_neg hmp]
  · rw [if_neg (fun hc => hmi hc.1), if_neg hmi, if_pos hmp] at h
    rcases hg : ns.get? m with _ | node
    · rw [hg] at h
      exact absurd h (by simp)
    · rw [hg] at h
      simp only [Option.map_some', Option.some.injEq] at h
      refine ⟨node, rfl, by rw [← h], ?_, ?_⟩
      · rw [← h, if_neg hmi]
      · rw [← h, if_pos hmp]
  · rw [if_neg (fun hc => hmi hc.1), if_neg hmi, if_neg hmp] at h
    exact ⟨node', h, rfl, by rw [if_neg hmi], by rw [if_neg hmp]⟩

def Pass2Inv (ns : List GraphNode) : Prop :=
  (∀ m node, ns.get? m = some node → ∀ p ∈ node.parents,
    p < ns.length ∧ ∀ pn, ns.get? p = some pn → m ∈ pn.children)
  ∧ (∀ m node, ns.get? m = some node → ∀ c ∈ node.children, c < ns.length)

theorem addEdge_children_superset (ns : List GraphNode) (pid i : Nat)
    (hpid : pid < ns.length) (hi : i < ns.length) (m : Nat) (node : GraphNode)
    (h : ns.get? m = some node) :
    ∃ node', (addEdge ns pid i).get? m = some node' ∧
      ∀ c ∈ node.children, c ∈ node'.children := by
  rcases hg : (addEdge ns pid i).get? m with _ | node'
  · have hlen : m < ns.length := (List.get?_eq_some.1 h).1
    have : (addEdge ns pid i).get? m ≠ none := by
      rw [Ne, List.get?_eq_none, addEdge_length]
      omega
    exact absurd hg this
  · obtain ⟨node2, hn2, _, _, hch⟩ := addEdge_char ns pid i hpid hi m node' hg
    rw [h] at hn2
    simp only [Option.some.injEq] at hn2
    subst hn2
    refine ⟨node', rfl, ?_⟩
    intro c hc
    rw [hch]
    by_cases hmp : m = pid
    · rw [if_pos hmp]
      exact List.mem_append_left _ hc
    · rw [if_neg hmp]
      exact hc

theorem addEdge_inv (ns : List GraphNode) (pid i : Nat)
    (hpid : pid < ns.length) (hi : i < ns.length) (h : Pass2Inv ns) :
    Pass2Inv (addEdge ns pid i) := by
  constructor
  · intro m node' hm p hp
    obtain ⟨node, hnode, _, hpar, _⟩ := addEdge_char ns pid i hpid hi m node' hm
    rw [addEdge_length]
    rw [hpar] at hp
    have hold : p ∈ node.parents → p < ns.length ∧
        ∀ pn', (addEdge ns pid i).get? p = some pn' → m ∈ pn'.children := by
      intro hpin
      obtain ⟨hlt, hmirror⟩ := h.1 m node hnode p hpin
      refine ⟨hlt, ?_⟩
      intro pn' hpn'
      obtain ⟨pn, hpn, _, _, hch⟩ := addEdge_char ns pid i hpid hi p pn' hpn'
      have hmem := hmirror pn hpn
      rw [hch]
      by_cases hpp : p = pid
      · rw [if_pos hpp]
        exact List.mem_append_left _ hmem
      · rw [if_neg hpp]
        exact hmem
    by_cases hmi : m = i
    · rw [if_pos hmi] at hp
      rcases List.mem_append.1 hp with hpin | hpnew
      · exact hold hpin
      · simp only [List.mem_singleton] at hpnew
        refine ⟨hpnew ▸ hpid, ?_⟩
        intro pn' hpn'
        obtain ⟨pn, hpn, _, _, hch⟩ := addEdge_char ns pid i hpid hi p pn' hpn'
        rw [hch, if_pos hpnew, hmi]
        exact List.mem_append_right _ (List.mem_singleton.2 rfl)
    · rw [if_neg hmi] at hp
      exact hold hp
  · intro m node' hm c hc
    obtain ⟨node, hnode, _, _, hch⟩ := addEdge_char ns pid i hpid hi m node' hm
    rw [addEdge_length]
    rw [hch] at hc
    by_cases hmp : m = pid
    · rw [if_pos hmp] at hc
      rcases List.mem_append.1 hc with hcin | hcnew
      · exact h.2 m node hnode c hcin
      · simp only [List.mem_singleton] at hcnew
        subst hcnew
        exact hi
    · rw [if_neg hmp] at hc
      exact h.2 m node hnode c hc

theorem pass2row_fold_inv (tasks : List PTask) (lookup : List (String × Nat))
    (hlk : ∀ a pid, lookupFind lookup a = some pid → pid < tasks.length)
    (i : Nat) (hi : i < tasks.length) :
    ∀ (l : List String) (ns ns' : List GraphNode),
      ns.length = tasks.length → Pass2Inv ns →
      (l.foldlM (fun ns a =>
        match lookupFind lookup a with
        | none => none
        | some pid => some (addEdge ns pid i)) ns : Option (List GraphNode)) = some ns' →
      ns'.length = tasks.length ∧ Pass2Inv ns' := by
  intro l
  induction l with
  | nil =>
    intro ns ns' hlen hinv h
    simp only [List.foldlM_nil, Option.pure_def, Option.some.injEq] at h
    subst h
    exact ⟨hlen, hinv⟩
  | cons a l ih =>
    intro ns ns' hlen hinv h
    simp only [List.foldlM_cons] at h
    rcases hla : lookupFind lookup a with _ | pid
    · rw [hla] at h
      exact absurd h (by simp)
    · rw [hla] at h
      simp only [Option.bind_eq_bind, Option.some_bind] at h
      have hpid : pid < ns.length := by rw [hlen]; exact hlk a pid hla
      have hi' : i < ns.length := by rw [hlen]; exact hi
      exact ih (addEdge ns pid i) ns' (by rw [addEdge_length]; exact hlen)
        (addEdge_inv ns pid i hpid hi' hinv) h

theorem pass2_fold_inv (tasks : List PTask) (lookup : List (String × Nat))
    (hlk : ∀ a pid, lookupFind lookup a = some pid → pid < tasks.length) :
    ∀ (rows : List Nat) (ns ns' : List GraphNode),
      (∀ i ∈ rows, i < tasks.length) → ns.length = tasks.length → Pass2Inv ns →
      (rows.foldlM (pass2row tasks lookup) ns : Option (List GraphNode)) = some ns' →
      ns'.length = tasks.length ∧ Pass2Inv ns' := by
  intro rows
  induction rows with
  | nil =>
    intro ns ns' hrows hlen hinv h
    simp only [List.foldlM_nil, Option.pure_def, Option.some.injEq] at h
    subst h
    exact ⟨hlen, hinv⟩
  | cons i rows ih =>
    intro ns ns' hrows hlen hinv h
    simp only [List.foldlM_cons] at h
    rcases hrow : pass2row tasks lookup ns i with _ | ns1
    · rw [hrow] at h
      exact absurd h (by simp)
    · rw [hrow] at h
      simp only [Option.bind_eq_bind, Option.some_bind] at h
      have h1 := pass2row_fold_inv tasks lookup hlk i (hrows i (List.mem_cons_self _ _))
        (tasks.getD i default).after ns ns1 hlen hinv hrow
      exact ih ns1 ns' (fun j hj => hrows j (List.mem_cons_of_mem _ hj)) h1.1 h1.2 h

theorem initNodes_get? (tasks : List PTask) (m : Nat) :
    (initNodes tasks).get? m = (tasks.get? m).map (fun _ => (⟨m, [], []⟩ : GraphNode)) := by
  unfold initNodes
  rw [List.get?_map, List.get?_enum]
  cases tasks.get? m <;> rfl

theorem initNodes_length (tasks : List PTask) : (initNodes tasks).length = tasks.length := by
  simp [initNodes]

theorem initNodes_inv (tasks : List PTask) : Pass2Inv (initNodes tasks) := by
  constructor
  · intro m node hm p hp
    rw [initNodes_get?] at hm
    rcases hg : tasks.get? m with _ | t
    · rw [hg] at hm
      exact absurd hm (by simp)
    · rw [hg] at hm
      simp only [Option.map_some', Option.some.injEq] at hm
      rw [← hm] at hp
      simp at hp
  · intro m node hm c hc
    rw [initNodes_get?] at hm
    rcases hg : tasks.get? m with _ | t
    · rw [hg] at hm
      exact absurd hm (by simp)
    · rw [hg] at hm
      simp only [Option.map_some', Option.some.injEq] at hm
      rw [← hm] at hc
      simp at hc

theorem mem_startingPoints (tasks : List PTask) (m : Nat) :
    m ∈ startingPoints tasks ↔ ∃ t, tasks.get? m = some t ∧ t.after = [] := by
  unfold startingPoints
  rw [List.mem_filterMap]
  constructor
  · rintro ⟨p, hp, hf⟩
    by_cases he : p.2.after.isEmpty
    · rw [if_pos he] at hf
      simp only [Option.some.injEq] at hf
      subst hf
      refine ⟨p.2, ?_, by simpa [List.isEmpty_iff] using he⟩
      rw [List.mem_enum_iff_getElem?] at hp
      rw [List.get?_eq_getElem?]
      exact hp
    · rw [if_neg he] at hf
      exact absurd hf (by simp)
  · rintro ⟨t, ht, hafter⟩
    refine ⟨(m, t), ?_, ?_⟩
    · rw [List.mem_enum_iff_getElem?, ← List.get?_eq_getElem?]
      exact ht
    · rw [if_pos (by simp [hafter])]

theorem addEdge_parents_mono (ns : List GraphNode) (pid i : Nat)
    (hpid : pid < ns.length) (hi : i < ns.length) (m : Nat) (node : GraphNode)
    (h : ns.get? m = some node) :
    ∃ node', (addEdge ns pid i).get? m = some node' ∧
      node.parents.length ≤ node'.parents.length := by
  rcases hg : (addEdge ns pid i).get? m with _ | node'
  · have hlen : m < ns.length := (List.get?_eq_some.1 h).1
    have : (addEdge ns pid i).get? m ≠ none := by
      rw [Ne, List.get?_eq_none, addEdge_length]
      omega
    exact absurd hg this
  · obtain ⟨node2, hn2, _, hpar, _⟩ := addEdge_char ns pid i hpid hi m node' hg
    rw [h] at hn2
    simp only [Option.some.injEq] at hn2
    subst hn2
    refine ⟨node', rfl, ?_⟩
    rw [hpar]
    by_cases hmi : m = i
    · rw [if_pos hmi]
      simp
    · rw [if_neg hmi]

/- monotonicity of the parents lists across the inner fold of pass2row,
   for an arbitrary suffix l of the dependency list. -/
theorem pass2row_fold_parents_mono (tasks : List PTask) (lookup : List (String × Nat))
    (hlk : ∀ a pid, lookupFind lookup a = some pid → pid < tasks.length)
    (i : Nat) (hi : i < tasks.length) :
    ∀ (l : List String) (ns ns' : List GraphNode), ns.length = tasks.length →
      (l.foldlM (fun ns a =>
        match lookupFind lookup a with
        | none => none
        | some pid => some (addEdge ns pid i)) ns : Option (List GraphNode)) = some ns' →
      ∀ m node, ns.get? m = some node →
        ∃ node', ns'.get? m = some node' ∧ node.parents.length ≤ node'.parents.length := by
  intro l
  induction l with
  | nil =>
    intro ns ns' hlen h m node hm
    simp only [List.foldlM_nil, Option.pure_def, Option.some.injEq] at h
    subst h
    exact ⟨node, hm, le_refl _⟩
  | cons a l ih =>
    intro ns ns' hlen h m node hm
    simp only [List.foldlM_cons] at h
    rcases hla : lookupFind lookup a with _ | pid
    · rw [hla] at h
      exact absurd h (by simp)
    · rw [hla] at h
      simp only [Option.bind_eq_bind, Option.some_bind] at h
      have hpid : pid < ns.length := by rw [hlen]; exact hlk a pid hla
      have hi' : i < ns.length := by rw [hlen]; exact hi
      obtain ⟨node1, hn1, hle1⟩ := addEdge_parents_mono ns pid i hpid hi' m node hm
      obtain ⟨node', hn', hle2⟩ := ih (addEdge ns pid i) ns'
        (by rw [addEdge_length]; exact hlen) h m node1 hn1
      exact ⟨node', hn', le_trans hle1 hle2⟩

/- processing row i with a nonempty dependency list leaves node i with a
   nonempty parents list. -/
theorem pass2row_parents_ne (tasks : List PTask) (lookup : List (String × Nat))
    (hlk : ∀ a pid, lookupFind lookup a = some pid → pid < tasks.length)
    (i : Nat) (hi : i < tasks.length) (ns ns' : List GraphNode)
    (hlen : ns.length = tasks.length)
    (hne : (tasks.getD i default).after ≠ [])
    (h : pass2row tasks lookup ns i = some ns') :
    ∀ node', ns'.get? i = some node' → node'.parents ≠ [] := by
  intro node' hn'
  unfold pass2row at h
  rcases hafter : (tasks.getD i default).after with _ | ⟨a, l⟩
  · exact absurd hafter hne
  rw [hafter] at h
  simp only [List.foldlM_cons] at h
  rcases hla : lookupFind lookup a with _ | pid
  · rw [hla] at h
    exact absurd h (by simp)
  rw [hla] at h
  simp only [Option.bind_eq_bind, Option.some_bind] at h
  have hpid : pid < ns.length := by rw [hlen]; exact hlk a pid hla
  have hi' : i < ns.length := by rw [hlen]; exact hi
  obtain ⟨node0, hn0⟩ : ∃ node0, ns.get? i = some node0 :=
    ⟨_, List.get?_eq_get hi'⟩
  obtain ⟨node1, hn1⟩ : ∃ node1, (addEdge ns pid i).get? i = some node1 := by
    rcases hg1 : (addEdge ns pid i).get? i with _ | node1
    · have : (addEdge ns pid i).get? i ≠ none := by
        rw [Ne, List.get?_eq_none, addEdge_length]
        omega
      exact absurd hg1 this
    · exact ⟨node1, rfl⟩
  obtain ⟨node0', hn0', _, hpar, _⟩ := addEdge_char ns pid i hpid hi' i node1 hn1
  obtain ⟨node2, hn2, hle⟩ := pass2row_fold_parents_mono tasks lookup hlk i hi l
    (addEdge ns pid i) ns' (by rw [addEdge_length]; exact hlen) h i node1 hn1
  rw [hn'] at hn2
  simp only [Option.some.injEq] at hn2
  subst hn2
  intro hcontra
  rw [hcontra] at hle
  simp only [List.length_nil, Nat.le_zero, List.length_eq_zero] at hle
  rw [hle, if_pos rfl] at hpar
  exact List.append_ne_nil_of_right_ne_nil _ (by simp) hpar.symm

/- monotonicity of the parents lists across the outer fold over rows. -/
theorem pass2_fold_parents_mono (tasks : List PTask) (lookup : List (String × Nat))
    (hlk : ∀ a pid, lookupFind lookup a = some pid → pid < tasks.length) :
    ∀ (rows : List Nat) (ns ns' : List GraphNode),
      (∀ j ∈ rows, j < tasks.length) → ns.length = tasks.length →
      (rows.foldlM (pass2row tasks lookup) ns : Option (List GraphNode)) = some ns' →
      ∀ m node, ns.get? m = some node →
        ∃ node', ns'.get? m = some node' ∧ node.parents.length ≤ node'.parents.length := by
  intro rows
  induction rows with
  | nil =>
    intro ns ns' hrows hlen h m node hm
    simp only [List.foldlM_nil, Option.pure_def, Option.some.injEq] at h
    subst h
    exact ⟨node, hm, le_refl _⟩
  | cons j rows ih =>
    intro ns ns' hrows hlen h m node hm
    simp only [List.foldlM_cons] at h
    rcases hrow : pass2row tasks lookup ns j with _ | ns1
    · rw [hrow] at h
      exact absurd h (by simp)
    rw [hrow] at h
    simp only [Option.bind_eq_bind, Option.some_bind] at h
    have hlen1 : ns1.length = tasks.length := by
      have := pass2row_fold_parents_mono tasks lookup hlk j
        (hrows j (List.mem_cons_self _ _))
      unfold pass2row at hrow
      clear this
      have hfl : ∀ (l : List String) (xs xs' : List GraphNode),
          (l.foldlM (fun ns a =>
            match lookupFind lookup a with
            | none => none
            | some pid => some (addEdge ns pid j)) xs : Option (List GraphNode)) = some xs' →
          xs'.length = xs.length := by
        intro l
        induction l with
        | nil =>
          intro xs xs' hx
          simp only [List.foldlM_nil, Option.pure_def, Option.some.injEq] at hx
          rw [← hx]
        | cons a l ihl =>
          intro xs xs' hx
          simp only [List.foldlM_cons] at hx
          rcases hla : lookupFind lookup a with _ | pid
          · rw [hla] at hx
            exact absurd hx (by simp)
          · rw [hla] at hx
            simp only [Option.bind_eq_bind, Option.some_bind] at hx
            rw [ihl _ _ hx, addEdge_length]
      rw [hfl _ _ _ hrow]
      exact hlen
    obtain ⟨node1, hn1, hle1⟩ := pass2row_fold_parents_mono tasks lookup hlk j
      (hrows j (List.mem_cons_self _ _)) (tasks.getD j default).after ns ns1 hlen hrow m node hm
    obtain ⟨node', hn', hle2⟩ := ih ns1 ns'
      (fun x hx => hrows x (List.mem_cons_of_mem _ hx)) hlen1 h m node1 hn1
    exact ⟨node', hn', le_trans hle1 hle2⟩

/- when the outer fold succeeds and row i has a nonempty dependency list,
   node i ends with a nonempty parents list. -/
theorem pass2_fold_parents_ne (tasks : List PTask) (lookup : List (String × Nat))
    (hlk : ∀ a pid, lookupFind lookup a = some pid → pid < tasks.length)
    (i : Nat) (hi : i < tasks.length) (hne : (tasks.getD i default).after ≠ []) :
    ∀ (rows : List Nat) (ns ns' : List GraphNode),
      (∀ j ∈ rows, j < tasks.length) → ns.length = tasks.length → i ∈ rows →
      (rows.foldlM (pass2row tasks lookup) ns : Option (List GraphNode)) = some ns' →
      ∀ node', ns'.get? i = some node' → node'.parents ≠ [] := by
  intro rows
  induction rows with
  | nil =>
    intro ns ns' hrows hlen hmem h
    exact absurd hmem (by simp)
  | cons j rows ih =>
    intro ns ns' hrows hlen hmem h node' hn'
    simp only [List.foldlM_cons] at h
    rcases hrow : pass2row tasks lookup ns j with _ | ns1
    · rw [hrow] at h
      exact absurd h (by simp)
    rw [hrow] at h
    simp only [Option.bind_eq_bind, Option.some_bind] at h
    have hlen1 : ns1.length = tasks.length := by
      have h2 := pass2row_fold_inv tasks lookup hlk j (hrows j (List.mem_cons_self _ _))
      unfold pass2row at hrow
      have hfl : ∀ (l : List String) (xs xs' : List GraphNode),
          (l.foldlM (fun ns a =>
            match lookupFind lookup a with
            | none => none
            | some pid => some (addEdge ns pid j)) xs : Option (List GraphNode)) = some xs' →
          xs'.length = xs.length := by
        intro l
        induction l with
        | nil =>
          intro xs xs' hx
          simp only [List.foldlM_nil, Option.pure_def, Option.some.injEq] at hx
          rw [← hx]
        | cons a l ihl =>
          intro xs xs' hx
          simp only [List.foldlM_cons] at hx
          rcases hla : lookupFind lookup a with _ | pid
          · rw [hla] at hx
            exact absurd hx (by simp)
          · rw [hla] at hx
            simp only [Option.bind_eq_bind, Option.some_bind] at hx
            rw [ihl _ _ hx, addEdge_length]
      rw [hfl _ _ _ hrow]
      exact hlen
    by_cases hji : j = i
    · subst hji
      have hne1 : ∀ node1, ns1.get? j = some node1 → node1.parents ≠ [] :=
        pass2row_parents_ne tasks lookup hlk j hi ns ns1 hlen hne hrow
      obtain ⟨node1, hn1⟩ : ∃ node1, ns1.get? j = some node1 := by
        rcases hg1 : ns1.get? j with _ | node1
        · have : ns1.get? j ≠ none := by
            rw [Ne, List.get?_eq_none, hlen1]
            omega
          exact absurd hg1 this
        · exact ⟨node1, rfl⟩
      obtain ⟨node2, hn2, hle⟩ := pass2_fold_parents_mono tasks lookup hlk rows ns1 ns'
        (fun x hx => hrows x (List.mem_cons_of_mem _ hx)) hlen1 h j node1 hn1
      rw [hn'] at hn2
      simp only [Option.some.injEq] at hn2
      subst hn2
      intro hcontra
      have h0 : node1.parents = [] := by
        rw [hcontra] at hle
        simpa using hle
      exact hne1 node1 hn1 h0
    · have hmem' : i ∈ rows := by
        rcases List.mem_cons.1 hmem with hji' | hmem'
        · exact absurd hji'.symm hji
        · exact hmem'
      exact ih ns1 ns' (fun x hx => hrows x (List.mem_cons_of_mem _ hx)) hlen1 hmem' h node' hn'

/- a successful build yields a well-formed graph of one node per task. -/
theorem build_task_graph_wf (tasks : List PTask) (g : Graph)
    (hb : build_task_graph tasks = some g) :
    GraphWF g ∧ g.graph.length = tasks.length := by
  unfold build_task_graph at hb
  rcases hfold : (List.range tasks.length).foldlM
      (pass2row tasks (buildLookup tasks)) (initNodes tasks) with _ | ns
  · rw [hfold] at hb
    exact absurd hb (by simp)
  rw [hfold] at hb
  simp only [Option.some.injEq] at hb
  have hlk : ∀ a pid, lookupFind (buildLookup tasks) a = some pid → pid < tasks.length :=
    fun a pid h => buildLookup_lt tasks a pid h
  have hrows : ∀ j ∈ List.range tasks.length, j < tasks.length := by
    intro j hj
    exact List.mem_range.1 hj
  obtain ⟨hlen, hinv⟩ := pass2_fold_inv tasks (buildLookup tasks) hlk
    (List.range tasks.length) (initNodes tasks) ns hrows
    (initNodes_length tasks) (initNodes_inv tasks) hfold
  have hgraph : g.graph = ns := by rw [← hb]
  have hstart : g.starting_points = startingPoints tasks := by rw [← hb]
  have hglen : g.graph.length = tasks.length := by rw [hgraph, hlen]
  refine ⟨⟨?_, ?_, ?_, ?_⟩, hglen⟩
  · intro m node hm p hp
    rw [hgraph] at hm ⊢
    have := hinv.1 m node hm p hp
    rw [hlen] at this ⊢
    exact this
  · intro m node hm c hc
    rw [hgraph] at hm ⊢
    have := hinv.2 m node hm c hc
    rw [hlen] at this ⊢
    exact this
  · intro m hm
    rw [hstart] at hm
    obtain ⟨t, ht, _⟩ := (mem_startingPoints tasks m).1 hm
    rw [hglen]
    exact (List.get?_eq_some.1 ht).1
  · intro m node hm hpar
    rw [hgraph] at hm
    have hmlt : m < tasks.length := by
      rw [← hlen]
      exact (List.get?_eq_some.1 hm).1
    obtain ⟨t, ht⟩ : ∃ t, tasks.get? m = some t := ⟨_, List.get?_eq_get hmlt⟩
    rcases hafter : t.after with _ | ⟨a, l⟩
    · rw [hstart]
      exact (mem_startingPoints tasks m).2 ⟨t, ht, hafter⟩
    · have htd : tasks.getD m default = t := getD_eq_of_get? tasks m t default ht
      have hne : (tasks.getD m default).after ≠ [] := by
        rw [htd, hafter]
        simp
      have := pass2_fold_parents_ne tasks (buildLookup tasks) hlk m hmlt hne
        (List.range tasks.length) (initNodes tasks) ns hrows (initNodes_length tasks)
        (List.mem_range.2 hmlt) hfold node hm
      exact absurd hpar this

theorem calcStartGo_some_parents (offsets : List (Option ℚ)) (a : ℚ) :
    ∀ (ps : List Nat) (v : ℚ), calcStartGo offsets a ps = some v →
      ∀ p ∈ ps, (offsets.getD p none).isSome := by
  intro ps
  induction ps generalizing a with
  | nil =>
    intro v _ p hp
    exact absurd hp (by simp)
  | cons q ps ih =>
    intro v h p hp
    unfold calcStartGo at h
    rcases ho : offsets.getD q none with _ | s
    · rw [ho] at h
      exact absurd h (by simp)
    · rw [ho] at h
      rcases List.mem_cons.1 hp with hpq | hp'
      · subst hpq
        rw [ho]
        rfl
      · exact ih (max a s) v h p hp'

theorem calcStartGo_isSome_of_parents (offsets : List (Option ℚ)) :
    ∀ (ps : List Nat) (a : ℚ), (∀ p ∈ ps, (offsets.getD p none).isSome) →
      (calcStartGo offsets a ps).isSome := by
  intro ps
  induction ps with
  | nil =>
    intro a _
    rfl
  | cons q ps ih =>
    intro a hps
    unfold calcStartGo
    rcases ho : offsets.getD q none with _ | s
    · have := hps q (List.mem_cons_self _ _)
      rw [ho] at this
      exact absurd this (by simp)
    · exact ih (max a s) (fun p hp => hps p (List.mem_cons_of_mem _ hp))

/- calcStartGo is stable under any update of the offsets that keeps every
   already-set entry at its value. -/
theorem calcStartGo_mono (offsets offsets' : List (Option ℚ))
    (hmono : ∀ p x, offsets.getD p none = some x → offsets'.getD p none = some x) :
    ∀ (ps : List Nat) (a : ℚ) (v : ℚ), calcStartGo offsets a ps = some v →
      calcStartGo offsets' a ps = some v := by
  intro ps
  induction ps with
  | nil =>
    intro a v h
    exact h
  | cons q ps ih =>
    intro a v h
    unfold calcStartGo at h ⊢
    rcases ho : offsets.getD q none with _ | s
    · rw [ho] at h
      exact absurd h (by simp)
    · rw [ho] at h
      rw [hmono q s ho]
      exact ih (max a s) v h

/- on fully resolved parents calcStartGo is exactly the left fold of max
   over the parents' offsets. -/
theorem calcStartGo_eq_foldl_max (offsets : List (Option ℚ)) :
    ∀ (ps : List Nat) (a : ℚ), (∀ p ∈ ps, (offsets.getD p none).isSome) →
      calcStartGo offsets a ps =
        some (ps.foldl (fun acc p => max acc ((offsets.getD p none).getD 0)) a) := by
  intro ps
  induction ps with
  | nil =>
    intro a _
    rfl
  | cons q ps ih =>
    intro a hps
    unfold calcStartGo
    rcases ho : offsets.getD q none with _ | s
    · have := hps q (List.mem_cons_self _ _)
      rw [ho] at this
      exact absurd this (by simp)
    · rw [List.foldl_cons, ho]
      have : (Option.some s).getD 0 = s := rfl
      rw [this]
      exact ih (max a s) (fun p hp => hps p (List.mem_cons_of_mem _ hp))

/- a successful stepBody writes offsets and writes exactly once more at n
   and leaves queue and starts untouched. -/
theorem stepBody_shape (C : Ctx) (n : Nat) (node : GraphNode) (task : PTask) (v : ℚ)
    (s s' : ProcState) (h : stepBody C n node task v s = .ok s') :
    ∃ w, s'.offsets = s.offsets.set n (some w) ∧ s'.starts = s.starts ∧
      s'.queue = s.queue ∧ s'.writes = s.writes.set n (s.writes.getD n 0 + 1) := by
  unfold stepBody at h
  rcases hfa : C.proj.assignments.find? (fun a => a.task == task.id) with _ | assignment
  · simp only [hfa] at h
    exact absurd h (by simp)
  simp only [hfa] at h
  rcases hfw : C.proj.team.find? (fun u => u.name == assignment.owner) with _ | worker
  · simp only [hfw] at h
    exact absurd h (by simp)
  simp only [hfw] at h
  rcases hfc : C.calFn worker.base_calendar with _ | worker_cal
  · simp only [hfc] at h
    exact absurd h (by simp)
  simp only [hfc] at h
  rcases hib : innerBurn worker_cal worker assignment assignment.owner C.proj.start_date
      C.innerFuel (C.proj.start_date + (((f64trunc v).toNat : Nat) : Int)) v
      (task.estimate * 8)
      ⟨s.workers_absence, s.public_holidays, s.resource_allocation, []⟩ with e | o
  · simp only [hib] at h
    exact absurd h (by simp)
  · rcases o with _ | out
    · simp only [hib] at h
      exact absurd h (by simp)
    · simp only [hib] at h
      simp only [Except.ok.injEq] at h
      exact ⟨out.cum, by rw [← h], by rw [← h], by rw [← h], by rw [← h]⟩

/- the three successful outcomes of one loop iteration on node n: skip of
   a resolved node, push-to-back on an unresolved parent, and resolution. -/
theorem stepIter_shape (C : Ctx) (n : Nat) (s s' : ProcState)
    (h : stepIter C n s = .ok s') :
    n < C.g.graph.length ∧
    (((s.offsets.getD n none).isSome ∧ s' = s)
    ∨ (∃ node, C.g.graph.get? n = some node ∧ s.offsets.getD n none = none ∧
        calc_start_time s.offsets node = none ∧ s' = { s with queue := s.queue ++ [n] })
    ∨ (∃ node v w, C.g.graph.get? n = some node ∧ s.offsets.getD n none = none ∧
        calc_start_time s.offsets node = some v ∧
        s'.offsets = (s.offsets.set n (some v)).set n (some w) ∧
        s'.starts = s.starts.set n (some v) ∧
        s'.queue = node.children.reverse ++ s.queue ∧
        s'.writes = (s.writes.set n (s.writes.getD n 0 + 1)).set n
          ((s.writes.set n (s.writes.getD n 0 + 1)).getD n 0 + 1))) := by
  unfold stepIter at h
  rcases hn : C.g.graph.get? n with _ | node
  · simp only [hn] at h
    exact absurd h (by simp)
  simp only [hn] at h
  refine ⟨(List.get?_eq_some.1 hn).1, ?_⟩
  rcases ht : C.proj.tasks.get? node.task_id with _ | task
  · simp only [ht] at h
    exact absurd h (by simp)
  simp only [ht] at h
  by_cases hres : (s.offsets.getD n none).isSome
  · rw [if_pos hres] at h
    simp only [Except.ok.injEq] at h
    exact Or.inl ⟨hres, h.symm⟩
  · rw [if_neg hres] at h
    have hnone : s.offsets.getD n none = none := by
      rcases ho : s.offsets.getD n none with _ | x
      · rfl
      · rw [ho] at hres
        exact absurd rfl hres
    rcases hc : calc_start_time s.offsets node with _ | v
    · simp only [hc] at h
      simp only [Except.ok.injEq] at h
      exact Or.inr (Or.inl ⟨node, rfl, hnone, hc, h.symm⟩)
    · simp only [hc] at h
      obtain ⟨w, hoff, hst, hq, hwr⟩ := stepBody_shape C n node task v _ s' h
      refine Or.inr (Or.inr ⟨node, v, w, rfl, hnone, hc, ?_, ?_, ?_, ?_⟩)
      · rw [hoff]
      · rw [hst]
      · rw [hq]
      · rw [hwr]

/- the invariant of the worklist loop.  kq is the key fact: an unresolved
   node whose parents are all resolved is still waiting in the queue.
   startRec records that the ghost first-write value stays the
   calc_start_time of the node against the current offsets, and wrCount
   is the write counter law behind C6. -/
structure LInv (g : Graph) (s : ProcState) : Prop where
  len_off : s.offsets.length = g.graph.length
  len_starts : s.starts.length = g.graph.length
  len_writes : s.writes.length = g.graph.length
  queue_lt : ∀ m ∈ s.queue, m < g.graph.length
  kq : ∀ m node, g.graph.get? m = some node → s.offsets.getD m none = none →
    (∀ p ∈ node.parents, (s.offsets.getD p none).isSome) → m ∈ s.queue
  so : ∀ m, (s.starts.getD m none).isSome = (s.offsets.getD m none).isSome
  startRec : ∀ m v node, s.starts.getD m none = some v → g.graph.get? m = some node →
    calc_start_time s.offsets node = some v
  wrCount : ∀ m, s.writes.getD m 0 = if (s.offsets.getD m none).isSome then 2 else 0
  parRes : ∀ m node, g.graph.get? m = some node → (s.offsets.getD m none).isSome →
    ∀ p ∈ node.parents, (s.offsets.getD p none).isSome

theorem loopStep_LInv (C : Ctx) (hWF : GraphWF C.g) (n : Nat) (rest : List Nat)
    (s s' : ProcState) (hInv : LInv C.g s) (hqeq : s.queue = n :: rest)
    (h : stepIter C n { s with queue := rest } = .ok s') : LInv C.g s' := by
  obtain ⟨hnlt, hcases⟩ := stepIter_shape C n { s with queue := rest } s' h
  rcases hcases with ⟨hres, hs'⟩ | ⟨node, hn, hnone, hcalc, hs'⟩ |
    ⟨node, v, w, hn, hnone, hcalc, hoff, hst, hq, hwr⟩
  · -- skip of an already resolved node
    subst hs'
    refine ⟨hInv.len_off, hInv.len_starts, hInv.len_writes, ?_, ?_, hInv.so,
      hInv.startRec, hInv.wrCount, hInv.parRes⟩
    · intro m hm
      exact hInv.queue_lt m (by rw [hqeq]; exact List.mem_cons_of_mem _ hm)
    · intro m node hm hmn hpar
      have hmem := hInv.kq m node hm hmn hpar
      rw [hqeq] at hmem
      rcases List.mem_cons.1 hmem with hmn' | hmem'
      · subst hmn'
        rw [hmn] at hres
        exact absurd hres (by simp)
      · exact hmem'
  · -- push-to-back of a node with an unresolved parent
    subst hs'
    refine ⟨hInv.len_off, hInv.len_starts, hInv.len_writes, ?_, ?_, hInv.so,
      hInv.startRec, hInv.wrCount, hInv.parRes⟩
    · intro m hm
      rcases List.mem_append.1 hm with hm' | hm'
      · exact hInv.queue_lt m (by rw [hqeq]; exact List.mem_cons_of_mem _ hm')
      · simp only [List.mem_singleton] at hm'
        subst hm'
        exact hnlt
    · intro m nodem hm hmn hpar
      have hmem := hInv.kq m nodem hm hmn hpar
      rw [hqeq] at hmem
      rcases List.mem_cons.1 hmem with hmn' | hmem'
      · subst hmn'
        exact List.mem_append_right _ (List.mem_singleton.2 rfl)
      · exact List.mem_append_left _ hmem'
  · -- resolution of node n
    have hnoff : n < s.offsets.length := by rw [hInv.len_off]; exact hnlt
    have hnst : n < s.starts.length := by rw [hInv.len_starts]; exact hnlt
    have hnwr : n < s.writes.length := by rw [hInv.len_writes]; exact hnlt
    have hoff' : s'.offsets = s.offsets.set n (some w) := by
      rw [hoff, List.set_set]
    have hMONO : ∀ p x, s.offsets.getD p none = some x → s'.offsets.getD p none = some x := by
      intro p x hpx
      by_cases hpn : p = n
      · subst hpn
        rw [hnone] at hpx
        exact absurd hpx (by simp)
      · rw [hoff', getD_set_ne s.offsets n p (some w) none (fun hc => hpn hc.symm)]
        exact hpx
    have hSOME : ∀ p, (s.offsets.getD p none).isSome → (s'.offsets.getD p none).isSome := by
      intro p hp
      obtain ⟨x, hx⟩ := Option.isSome_iff_exists.1 hp
      rw [hMONO p x hx]
      rfl
    have hoffn : s'.offsets.getD n none = some w := by
      rw [hoff']
      exact getD_set_self s.offsets n (some w) none hnoff
    refine ⟨?_, ?_, ?_, ?_, ?_, ?_, ?_, ?_, ?_⟩
    · rw [hoff', List.length_set, hInv.len_off]
    · rw [hst, List.length_set, hInv.len_starts]
    · rw [hwr, List.length_set, List.length_set, hInv.len_writes]
    · intro m hm
      rw [hq] at hm
      rcases List.mem_append.1 hm with hm' | hm'
      · rw [List.mem_reverse] at hm'
        exact (hWF.2.1 n node hn m hm')
      · exact hInv.queue_lt m (by rw [hqeq]; exact List.mem_cons_of_mem _ hm')
    · intro m nodem hm hmn hpar
      have hmne : m ≠ n := by
        intro hc
        subst hc
        rw [hoffn] at hmn
        exact absurd hmn (by simp)
      have hmold : s.offsets.getD m none = none := by
        rw [hoff', getD_set_ne s.offsets n m (some w) none (fun hc => hmne hc.symm)] at hmn
        exact hmn
      rw [hq]
      by_cases hall : ∀ p ∈ nodem.parents, (s.offsets.getD p none).isSome
      · have hmem := hInv.kq m nodem hm hmold hall
        rw [hqeq] at hmem
        rcases List.mem_cons.1 hmem with hmn' | hmem'
        · exact absurd hmn' hmne
        · exact List.mem_append_right _ hmem'
      · push_neg at hall
        obtain ⟨p, hp, hpns⟩ := hall
        have hpn : p = n := by
          by_contra hpn
          have := hpar p hp
          rw [hoff', getD_set_ne s.offsets n p (some w) none (fun hc => hpn hc.symm)] at this
          exact hpns this
        subst hpn
        have hmirror := (hWF.1 m nodem hm p hp).2 node hn
        exact List.mem_append_left _ (List.mem_reverse.2 hmirror)
    · intro m
      by_cases hmn : m = n
      · subst hmn
        rw [hoffn, hst, getD_set_self s.starts m (some v) none hnst]
        rfl
      · rw [hoff', hst, getD_set_ne s.starts n m (some v) none (fun hc => hmn hc.symm),
          getD_set_ne s.offsets n m (some w) none (fun hc => hmn hc.symm)]
        exact hInv.so m
    · intro m v0 nodem hstarts hm
      by_cases hmn : m = n
      · subst hmn
        rw [hst, getD_set_self s.starts m (some v) none hnst] at hstarts
        simp only [Option.some.injEq] at hstarts
        subst hstarts
        rw [hn] at hm
        simp only [Option.some.injEq] at hm
        subst hm
        exact calcStartGo_mono s.offsets s'.offsets hMONO node.parents 0 v hcalc
      · rw [hst, getD_set_ne s.starts n m (some v) none (fun hc => hmn hc.symm)] at hstarts
        have := hInv.startRec m v0 nodem hstarts hm
        exact calcStartGo_mono s.offsets s'.offsets hMONO nodem.parents 0 v0 this
    · intro m
      by_cases hmn : m = n
      · subst hmn
        have ha : s.writes.getD m 0 = 0 := by
          rw [hInv.wrCount m, hnone]
          rfl
        have h1 : (s.writes.set m (s.writes.getD m 0 + 1)).getD m 0 = s.writes.getD m 0 + 1 :=
          getD_set_self s.writes m _ 0 hnwr
        rw [hwr, getD_set_self _ m _ 0 (by rw [List.length_set]; exact hnwr), h1, ha, hoffn]
        rfl
      · rw [hwr, getD_set_ne _ n m _ 0 (fun hc => hmn hc.symm),
          getD_set_ne s.writes n m _ 0 (fun hc => hmn hc.symm),
          hoff', getD_set_ne s.offsets n m (some w) none (fun hc => hmn hc.symm)]
        exact hInv.wrCount m
    · intro m nodem hm hmsome p hp
      by_cases hmn : m = n
      · subst hmn
        rw [hn] at hm
        simp only [Option.some.injEq] at hm
        subst hm
        exact hSOME p (calcStartGo_some_parents s.offsets 0 node.parents v hcalc p hp)
      · have hmold : (s.offsets.getD m none).isSome := by
          rw [hoff', getD_set_ne s.offsets n m (some w) none (fun hc => hmn hc.symm)] at hmsome
          exact hmsome
        exact hSOME p (hInv.parRes m nodem hm hmold p hp)

theorem initState_LInv (g : Graph) (proj : ProjectConfig) (hWF : GraphWF g) :
    LInv g (initState g proj) := by
  refine ⟨?_, ?_, ?_, ?_, ?_, ?_, ?_, ?_, ?_⟩
  · simp [initState]
  · simp [initState]
  · simp [initState]
  · intro m hm
    exact hWF.2.2.1 m hm
  · intro m node hm _ hpar
    have hparnil : node.parents = [] := by
      rcases hps : node.parents with _ | ⟨p, ps⟩
      · rfl
      · have := hpar p (by rw [hps]; exact List.mem_cons_self _ _)
        rw [show (initState g proj).offsets.getD p none = none from
          getD_replicate_none g.graph.length p] at this
        exact absurd this (by simp)
    exact hWF.2.2.2 m node hm hparnil
  · intro m
    rw [show (initState g proj).starts.getD m none = none from
      getD_replicate_none g.graph.length m,
      show (initState g proj).offsets.getD m none = none from
      getD_replicate_none g.graph.length m]
  · intro m v node hstarts _
    rw [show (initState g proj).starts.getD m none = none from
      getD_replicate_none g.graph.length m] at hstarts
    exact absurd hstarts (by simp)
  · intro m
    rw [show (initState g proj).writes.getD m 0 = 0 from
      getD_replicate_zero g.graph.length m,
      show (initState g proj).offsets.getD m none = none from
      getD_replicate_none g.graph.length m]
    rfl
  · intro m node _ hsome
    rw [show (initState g proj).offsets.getD m none = none from
      getD_replicate_none g.graph.length m] at hsome
    exact absurd hsome (by simp)

/- a finished run preserves the invariant and ends with an empty queue. -/
theorem runLoop_LInv_finished (C : Ctx) (hWF : GraphWF C.g) :
    ∀ (fuel : Nat) (s sf : ProcState), LInv C.g s →
      runLoop C fuel s = .finished sf → LInv C.g sf ∧ sf.queue = [] := by
  intro fuel
  induction fuel with
  | zero =>
    intro s sf hInv h
    exact absurd h (by simp [runLoop])
  | succ k ih =>
    intro s sf hInv h
    rw [show runLoop C (k + 1) s =
      (match s.queue with
      | [] => .finished s
      | n :: rest =>
        match stepIter C n { s with queue := rest } with
        | .error e => .failed e
        | .ok s1 => runLoop C k s1) from rfl] at h
    rcases hq : s.queue with _ | ⟨n, rest⟩
    · simp only [hq] at h
      simp only [LoopResult.finished.injEq] at h
      rw [← h]
      exact ⟨hInv, hq⟩
    · simp only [hq] at h
      rcases hst : stepIter C n { s with queue := rest } with e | s1
      · simp only [hst] at h
        exact absurd h (by simp)
      · simp only [hst] at h
        exact ih s1 sf (loopStep_LInv C hWF n rest s s1 hInv hq hst) h

/- number of unresolved nodes: the none entries of the offsets list. -/
def Ucount (s : ProcState) : Nat :=
  s.offsets.countP (fun o => o.isNone)

/- a node is actionable when it exists, is unresolved and calc_start_time
   would succeed on the current offsets. -/
def actB (g : Graph) (offsets : List (Option ℚ)) (m : Nat) : Bool :=
  match g.graph.get? m with
  | none => false
  | some node => (offsets.getD m none).isNone && (calc_start_time offsets node).isSome

theorem findIdx_append_of_any (p : Nat → Bool) :
    ∀ (l1 l2 : List Nat), (∃ x ∈ l1, p x = true) →
      (l1 ++ l2).findIdx p = l1.findIdx p := by
  intro l1
  induction l1 with
  | nil =>
    intro l2 hx
    obtain ⟨x, hx1, _⟩ := hx
    exact absurd hx1 (by simp)
  | cons a l1 ih =>
    intro l2 hx
    rw [List.cons_append, List.findIdx_cons p a (l1 ++ l2), List.findIdx_cons p a l1]
    rcases hpa : p a with _ | _
    · simp only [Bool.cond_false]
      obtain ⟨x, hx1, hx2⟩ := hx
      rcases List.mem_cons.1 hx1 with hxa | hx1'
      · subst hxa
        rw [hpa] at hx2
        exact absurd hx2 (by simp)
      · rw [ih l2 ⟨x, hx1', hx2⟩]
    · simp only [Bool.cond_true]

theorem countP_isNone_set :
    ∀ (l : List (Option ℚ)) (n : Nat) (w : ℚ), l.get? n = some none →
      (l.set n (some w)).countP (fun o => o.isNone) < l.countP (fun o => o.isNone) := by
  intro l
  induction l with
  | nil =>
    intro n w h
    exact absurd h (by simp)
  | cons a l ih =>
    intro n w h
    cases n with
    | zero =>
      simp only [List.get?_cons_zero, Option.some.injEq] at h
      subst h
      rw [List.set_cons_zero, List.countP_cons, List.countP_cons]
      simp
    | succ n =>
      simp only [List.get?_cons_succ] at h
      rw [List.set_cons_succ, List.countP_cons, List.countP_cons]
      have := ih n w h
      omega

/- under a rank function that strictly decreases along parent edges, any
   state with an unresolved node has an actionable node in the queue: the
   unresolved node of minimal rank. -/
theorem exists_actionable (g : Graph) (hWF : GraphWF g) (rank : Nat → Nat)
    (hrank : ∀ m node, g.graph.get? m = some node → ∀ p ∈ node.parents, rank p < rank m)
    (s : ProcState) (hInv : LInv g s) (hU : 0 < Ucount s) :
    ∃ m0, m0 ∈ s.queue ∧ actB g s.offsets m0 = true := by
  set u : List Nat := (List.range g.graph.length).filter
    (fun m => (s.offsets.getD m none).isNone) with hu
  have hune : u ≠ [] := by
    unfold Ucount at hU
    obtain ⟨o, ho, hno⟩ := List.countP_pos.1 hU
    obtain ⟨idx, hidx⟩ := List.mem_iff_get?.1 ho
    have hlt : idx < g.graph.length := by
      rw [← hInv.len_off]
      exact (List.get?_eq_some.1 hidx).1
    have hgd : s.offsets.getD idx none = o := getD_eq_of_get? s.offsets idx o none hidx
    have : idx ∈ u := by
      rw [hu]
      refine List.mem_filter.2 ⟨List.mem_range.2 hlt, ?_⟩
      rw [hgd]
      exact hno
    intro hc
    rw [hc] at this
    exact absurd this (by simp)
  obtain ⟨m0, hm0⟩ : ∃ m0, u.argmin rank = some m0 := by
    rcases ha : u.argmin rank with _ | m0
    · exact absurd (List.argmin_eq_none.1 ha) hune
    · exact ⟨m0, rfl⟩
  have hm0u : m0 ∈ u := List.argmin_mem hm0
  have hm0lt : m0 < g.graph.length := List.mem_range.1 (List.mem_filter.1 hm0u).1
  have hm0un : (s.offsets.getD m0 none).isNone = true := (List.mem_filter.1 hm0u).2
  obtain ⟨node0, hn0⟩ : ∃ node0, g.graph.get? m0 = some node0 :=
    ⟨_, List.get?_eq_get hm0lt⟩
  have hpar : ∀ p ∈ node0.parents, (s.offsets.getD p none).isSome := by
    intro p hp
    have hplt : p < g.graph.length := (hWF.1 m0 node0 hn0 p hp).1
    by_contra hps
    have hpnone : (s.offsets.getD p none).isNone = true := by
      rcases ho : s.offsets.getD p none with _ | x
      · rfl
      · rw [ho] at hps
        exact absurd rfl hps
    have hpu : p ∈ u := by
      rw [hu]
      exact List.mem_filter.2 ⟨List.mem_range.2 hplt, hpnone⟩
    have := List.le_of_mem_argmin hpu hm0
    have := hrank m0 node0 hn0 p hp
    omega
  have hm0none : s.offsets.getD m0 none = none := by
    rcases ho : s.offsets.getD m0 none with _ | x
    · rfl
    · rw [ho] at hm0un
      exact absurd hm0un (by simp)
  refine ⟨m0, hInv.kq m0 node0 hn0 hm0none hpar, ?_⟩
  unfold actB
  rw [hn0, hm0none]
  have hcs : (calc_start_time s.offsets node0).isSome :=
    calcStartGo_isSome_of_parents s.offsets node0.parents 0 hpar
  simp only [Option.isNone_none, Bool.true_and]
  exact hcs

/- the worklist loop terminates from any invariant state of a ranked
   (acyclic) graph: with enough fuel it does not run out. -/
theorem runLoop_terminates (C : Ctx) (hWF : GraphWF C.g) (rank : Nat → Nat)
    (hrank : ∀ m node, C.g.graph.get? m = some node → ∀ p ∈ node.parents, rank p < rank m) :
    ∀ s, LInv C.g s → ∃ OF, runLoop C OF s ≠ LoopResult.outOfFuel := by
  have main : ∀ u s, LInv C.g s → Ucount s < u →
      ∃ OF, runLoop C OF s ≠ LoopResult.outOfFuel := by
    intro u
    induction u with
    | zero =>
      intro s _ hU
      omega
    | succ u ihU =>
      have innerQ : ∀ qb s, LInv C.g s → Ucount s < u + 1 → s.queue.length < qb →
          ∃ OF, runLoop C OF s ≠ LoopResult.outOfFuel := by
        intro qb
        induction qb with
        | zero =>
          intro s _ _ hQ
          omega
        | succ qb ihQ =>
          have innerF : ∀ fb s, LInv C.g s → Ucount s < u + 1 → s.queue.length < qb + 1 →
              s.queue.findIdx (actB C.g s.offsets) < fb →
              ∃ OF, runLoop C OF s ≠ LoopResult.outOfFuel := by
            intro fb
            induction fb with
            | zero =>
              intro s _ _ _ hF
              omega
            | succ fb ihF =>
              intro s hInv hU hQ hF
              rcases hq : s.queue with _ | ⟨n, rest⟩
              · refine ⟨1, ?_⟩
                rw [show runLoop C 1 s =
                  (match s.queue with
                  | [] => .finished s
                  | n :: rest =>
                    match stepIter C n { s with queue := rest } with
                    | .error e => .failed e
                    | .ok s1 => runLoop C 0 s1) from rfl]
                simp [hq]
              · rcases hst : stepIter C n { s with queue := rest } with e | s1
                · refine ⟨1, ?_⟩
                  rw [show runLoop C 1 s =
                    (match s.queue with
                    | [] => .finished s
                    | n :: rest =>
                      match stepIter C n { s with queue := rest } with
                      | .error e => .failed e
                      | .ok s1 => runLoop C 0 s1) from rfl]
                  simp only [hq, hst]
                  simp
                · have step_eq : ∀ OF, runLoop C (OF + 1) s = runLoop C OF s1 := by
                    intro OF
                    rw [show runLoop C (OF + 1) s =
                      (match s.queue with
                      | [] => .finished s
                      | n :: rest =>
                        match stepIter C n { s with queue := rest } with
                        | .error e => .failed e
                        | .ok s1 => runLoop C OF s1) from rfl]
                    simp only [hq, hst]
                  have hInv1 : LInv C.g s1 := loopStep_LInv C hWF n rest s s1 hInv hq hst
                  obtain ⟨hnlt, hcases⟩ := stepIter_shape C n { s with queue := rest } s1 hst
                  have hrlen : rest.length + 1 < qb + 1 := by
                    have := hQ
                    rw [hq] at this
                    simpa using this
                  rcases hcases with ⟨hres, hs1⟩ | ⟨node, hn, hnone, hcalc, hs1⟩ |
                    ⟨node, v, w, hn, hnone, hcalc, hoff, hstt, hqq, hwr⟩
                  · -- skip: queue shrinks
                    obtain ⟨OF, hOF⟩ := ihQ s1 hInv1
                      (by rw [hs1]; exact hU)
                      (by rw [hs1]; simpa using Nat.lt_of_succ_lt_succ hrlen)
                    exact ⟨OF + 1, by rw [step_eq OF]; exact hOF⟩
                  · -- push-to-back: first actionable index shrinks
                    have hnoffs : n < s.offsets.length := by
                      rw [hInv.len_off]
                      exact hnlt
                    have hactn : actB C.g s.offsets n = false := by
                      have h1 : s.offsets.getD n none = none := hnone
                      have h2 : calc_start_time s.offsets node = none := hcalc
                      unfold actB
                      rw [hn]
                      show ((s.offsets.getD n none).isNone &&
                        (calc_start_time s.offsets node).isSome) = false
                      rw [h1, h2]
                      rfl
                    have hUpos : 0 < Ucount s := by
                      obtain ⟨x, hx⟩ : ∃ x, s.offsets.get? n = some x :=
                        ⟨_, List.get?_eq_get hnoffs⟩
                      have hxn : x = none := by
                        have := getD_eq_of_get? s.offsets n x none hx
                        rw [show ({ s with queue := rest } : ProcState).offsets.getD n none =
                          s.offsets.getD n none from rfl] at hnone
                        rw [hnone] at this
                        exact this.symm
                      subst hxn
                      exact List.countP_pos.2 ⟨none, List.get?_mem hx, rfl⟩
                    obtain ⟨m0, hm0q, hm0act⟩ :=
                      exists_actionable C.g hWF rank hrank s hInv hUpos
                    have hm0rest : m0 ∈ rest := by
                      rw [hq] at hm0q
                      rcases List.mem_cons.1 hm0q with hm0n | h'
                      · subst hm0n
                        rw [hactn] at hm0act
                        exact absurd hm0act (by simp)
                      · exact h'
                    have hidx_old : s.queue.findIdx (actB C.g s.offsets) =
                        rest.findIdx (actB C.g s.offsets) + 1 := by
                      rw [hq, List.findIdx_cons (actB C.g s.offsets) n rest, hactn]
                      rfl
                    have hidx_new : (rest ++ [n]).findIdx (actB C.g s.offsets) =
                        rest.findIdx (actB C.g s.offsets) :=
                      findIdx_append_of_any (actB C.g s.offsets) rest [n] ⟨m0, hm0rest, hm0act⟩
                    obtain ⟨OF, hOF⟩ := ihF s1 hInv1
                      (by rw [hs1]; exact hU)
                      (by rw [hs1]; simpa using hrlen)
                      (by
                        rw [hs1]
                        show (rest ++ [n]).findIdx (actB C.g s.offsets) < fb
                        rw [hidx_new]
                        rw [hidx_old] at hF
                        omega)
                    exact ⟨OF + 1, by rw [step_eq OF]; exact hOF⟩
                  · -- resolution: unresolved count shrinks
                    have hnoffs : n < s.offsets.length := by
                      rw [hInv.len_off]
                      exact hnlt
                    have hoff' : s1.offsets = s.offsets.set n (some w) := by
                      rw [hoff, List.set_set]
                    have hgetn : s.offsets.get? n = some none := by
                      obtain ⟨x, hx⟩ : ∃ x, s.offsets.get? n = some x :=
                        ⟨_, List.get?_eq_get hnoffs⟩
                      have := getD_eq_of_get? s.offsets n x none hx
                      rw [show ({ s with queue := rest } : ProcState).offsets.getD n none =
                        s.offsets.getD n none from rfl] at hnone
                      rw [hnone] at this
                      rw [hx, this]
                    have hUdec : Ucount s1 < Ucount s := by
                      unfold Ucount
                      rw [hoff']
                      exact countP_isNone_set s.offsets n w hgetn
                    obtain ⟨OF, hOF⟩ := ihU s1 hInv1 (by omega)
                    exact ⟨OF + 1, by rw [step_eq OF]; exact hOF⟩
          intro s hInv hU hQ
          exact innerF (s.queue.findIdx (actB C.g s.offsets) + 1) s hInv hU hQ (by omega)
      intro s hInv hU
      exact innerQ (s.queue.length + 1) s hInv hU (by omega)
  intro s hInv
  exact main (Ucount s + 1) s hInv (by omega)

def gChain : Graph :=
  ⟨[0], [⟨0, [], [1]⟩, ⟨1, [0], []⟩]⟩

/-- C5 (amended): as stated the claim fails — an all-closed calendar makes
the burn-down inside one traversal step diverge, so the loop does not
terminate for every input with an acyclic reachable graph.  Amended to the
traversal itself: for every successfully built task graph that admits a
rank function strictly decreasing along parent edges (acyclicity), the
worklist loop run from the initial state never runs out of fuel — it
finishes or stops at an error — and whenever it finishes, every node is
resolved, every node's ghost-recorded start offset equals the maximum over
its parents of the parent's final memoized cumulative offset (which
already includes the parent's consumed span), and dependency-free nodes
start at offset 0.  Reachability from a dependency-free task is not
needed: an unresolved node of minimal rank is always actionable and still
queued. -/
theorem c5_traversal_amended (tasks : List PTask) (g : Graph)
    (proj : ProjectConfig) (calFn : String → Option BusinessDaysCalendar)
    (innerFuel : Nat) (rank : Nat → Nat)
    (hb : build_task_graph tasks = some g)
    (hrank : ∀ m, m < g.graph.length →
      ∀ p ∈ (g.graph.getD m default).parents, rank p < rank m) :
    (∃ OF, runLoop ⟨g, proj, calFn, innerFuel⟩ OF (initState g proj) ≠ LoopResult.outOfFuel)
    ∧ ∀ OF sf, runLoop ⟨g, proj, calFn, innerFuel⟩ OF (initState g proj) =
        LoopResult.finished sf →
        (∀ m, m < g.graph.length → (sf.offsets.getD m none).isSome)
        ∧ (∀ m node, g.graph.get? m = some node →
            sf.starts.getD m none =
              some (node.parents.foldl (fun a p => max a ((sf.offsets.getD p none).getD 0)) 0))
        ∧ (∀ m node, g.graph.get? m = some node → node.parents = [] →
            sf.starts.getD m none = some 0) := by
  obtain ⟨hWF, hlen⟩ := build_task_graph_wf tasks g hb
  have hrank' : ∀ m node, g.graph.get? m = some node → ∀ p ∈ node.parents, rank p < rank m := by
    intro m node hm p hp
    have hmlt : m < g.graph.length := (List.get?_eq_some.1 hm).1
    have h2 := hrank m hmlt
    rw [getD_eq_of_get? g.graph m node default hm] at h2
    exact h2 p hp
  constructor
  · exact runLoop_terminates ⟨g, proj, calFn, innerFuel⟩ hWF rank hrank'
      (initState g proj) (initState_LInv g proj hWF)
  · intro OF sf hf
    obtain ⟨hInvf, hqf⟩ := runLoop_LInv_finished ⟨g, proj, calFn, innerFuel⟩ hWF OF
      (initState g proj) sf (initState_LInv g proj hWF) hf
    have hall : ∀ m, m < g.graph.length → (sf.offsets.getD m none).isSome := by
      intro m hm
      by_contra hns
      have hmo : m < sf.offsets.length := by
        rw [hInvf.len_off]
        exact hm
      obtain ⟨x, hx⟩ : ∃ x, sf.offsets.get? m = some x := ⟨_, List.get?_eq_get hmo⟩
      have hgd := getD_eq_of_get? sf.offsets m x none hx
      have hxn : x = none := by
        rcases x with _ | y
        · rfl
        · rw [hgd] at hns
          exact absurd rfl hns
      subst hxn
      have hUpos : 0 < Ucount sf := List.countP_pos.2 ⟨none, List.get?_mem hx, rfl⟩
      obtain ⟨m0, hm0q, _⟩ := exists_actionable g hWF rank hrank' sf hInvf hUpos
      rw [hqf] at hm0q
      exact absurd hm0q (by simp)
    have hb2 : ∀ m node, g.graph.get? m = some node →
        sf.starts.getD m none =
          some (node.parents.foldl (fun a p => max a ((sf.offsets.getD p none).getD 0)) 0) := by
      intro m node hm
      have hmlt : m < g.graph.length := (List.get?_eq_some.1 hm).1
      have hsome := hall m hmlt
      have hstS : (sf.starts.getD m none).isSome := by
        rw [hInvf.so m]
        exact hsome
      obtain ⟨v, hv⟩ := Option.isSome_iff_exists.1 hstS
      have hcalc := hInvf.startRec m v node hv hm
      have hpar := hInvf.parRes m node hm hsome
      have hmax := calcStartGo_eq_foldl_max sf.offsets node.parents 0 hpar
      rw [show calc_start_time sf.offsets node = calcStartGo sf.offsets 0 node.parents from rfl,
        hmax] at hcalc
      simp only [Option.some.injEq] at hcalc
      rw [hv, hcalc]
    refine ⟨hall, hb2, ?_⟩
    intro m node hm hparnil
    rw [hb2 m node hm, hparnil]
    rfl

theorem c5_traversal_witness :
    (build_task_graph projChain.tasks = some gChain ∧
     (∀ m, m < gChain.graph.length →
       ∀ p ∈ (gChain.graph.getD m default).parents, p < m)) ∧
    ((∃ OF, runLoop ⟨gChain, projChain, calsGet calsW, 40⟩ OF
        (initState gChain projChain) ≠ LoopResult.outOfFuel)
     ∧ ∀ OF sf, runLoop ⟨gChain, projChain, calsGet calsW, 40⟩ OF
         (initState gChain projChain) = LoopResult.finished sf →
         (∀ m, m < gChain.graph.length → (sf.offsets.getD m none).isSome)
         ∧ (∀ m node, gChain.graph.get? m = some node →
             sf.starts.getD m none =
               some (node.parents.foldl (fun a p => max a ((sf.offsets.getD p none).getD 0)) 0))
         ∧ (∀ m node, gChain.graph.get? m = some node → node.parents = [] →
             sf.starts.getD m none = some 0)) :=
  ⟨⟨by with_unfolding_all decide, by decide⟩,
   c5_traversal_amended projChain.tasks gChain projChain (calsGet calsW) 40 (fun m => m)
     (by with_unfolding_all decide) (by decide)⟩

/-- C6 (amended): the counterexample shows the cumulative-offset cell of a
resolved node is written exactly twice (once inside calc_start_time, once
at the end of the task body), refuting "at most once".  Amended: after any
finished run on a successfully built graph, every node's write counter is
exactly 2 when its offset is resolved and 0 otherwise, and a resolved
node has all its parents resolved — the first write happens only after
every parent offset is known. -/
theorem c6_writes_amended (tasks : List PTask) (g : Graph)
    (proj : ProjectConfig) (calFn : String → Option BusinessDaysCalendar)
    (innerFuel outerFuel : Nat) (sf : ProcState)
    (hb : build_task_graph tasks = some g)
    (hf : runLoop ⟨g, proj, calFn, innerFuel⟩ outerFuel (initState g proj) =
      LoopResult.finished sf) :
    (∀ m, sf.writes.getD m 0 = if (sf.offsets.getD m none).isSome then 2 else 0)
    ∧ (∀ m node, g.graph.get? m = some node → (sf.offsets.getD m none).isSome →
        ∀ p ∈ node.parents, (sf.offsets.getD p none).isSome) := by
  obtain ⟨hWF, _⟩ := build_task_graph_wf tasks g hb
  obtain ⟨hInvf, _⟩ := runLoop_LInv_finished ⟨g, proj, calFn, innerFuel⟩ hWF outerFuel
    (initState g proj) sf (initState_LInv g proj hWF) hf
  exact ⟨hInvf.wrCount, hInvf.parRes⟩

theorem c6_writes_witness :
    (build_task_graph projOne.tasks = some gOne ∧
     runLoop ⟨gOne, projOne, calsGet calsW, 40⟩ 2 (initState gOne projOne) =
       LoopResult.finished sOne) ∧
    ((∀ m, sOne.writes.getD m 0 = if (sOne.offsets.getD m none).isSome then 2 else 0)
     ∧ (∀ m node, gOne.graph.get? m = some node → (sOne.offsets.getD m none).isSome →
         ∀ p ∈ node.parents, (sOne.offsets.getD p none).isSome)) :=
  ⟨⟨by with_unfolding_all decide, by with_unfolding_all decide⟩,
   c6_writes_amended projOne.tasks gOne projOne (calsGet calsW) 40 2 sOne
     (by with_unfolding_all decide) (by with_unfolding_all decide)⟩
